/-
Verification of the Response Normalizer of `src/app.py`.

This file shallowly embeds the functions `parse_json_response` (with its
nested helpers `extract_field` / `extract_array`), `parse_rating` and
`clean_text_formatting` from `src/app.py`, together with the pieces of the
Python standard library they use (`str.strip`, `str.find`, `str.rfind`,
`json.loads`, and the concrete `re` patterns appearing in the source).

Modelling conventions:
  * Python strings are `String` / `List Char`.
  * Each `re.sub` / `re.search` / `re.findall` call is specialised to the
    concrete pattern used at that call site (a generic regex engine is not
    embedded); the scan-left-to-right, non-overlapping semantics of `re.sub`
    and the leftmost-match semantics of `re.search` are modelled directly.
  * `json.loads` is modelled by a recursive-descent reader over `List Char`
    in strict mode (raw control characters rejected inside strings, JSON
    whitespace between tokens, trailing data rejected).  JSON numbers are
    modelled for integers only; floats and `NaN`/`Infinity` payloads are out
    of scope (no claim exercises them).  Python dict construction keeps the
    first position of a duplicated key and overwrites its value.
  * Functions that are not structurally recursive take an explicit fuel
    argument (always called with at least the length of the input, which is
    enough for one pass), so that every definition evaluates by `rfl`.
-/
import Mathlib

/-- The ASCII whitespace characters matched by Python's `\s` and stripped by
`str.strip` (space, tab, newline, carriage return, vertical tab, form feed). -/
def isPyWs (c : Char) : Bool :=
  c = ' ' || c = '\t' || c = '\n' || c = '\r' || c = Char.ofNat 11 || c = Char.ofNat 12

/-- Whitespace skipped between tokens by `json.loads` (JSON spec set). -/
def isJsonWs (c : Char) : Bool :=
  c = ' ' || c = '\t' || c = '\n' || c = '\r'

/-- The backtick character (written via its code point). -/
def btick : Char := Char.ofNat 96

/-- Python `str.strip()` (over the ASCII whitespace set). -/
def pythonStrip (cs : List Char) : List Char :=
  ((cs.dropWhile isPyWs).reverse.dropWhile isPyWs).reverse

/-- One left-to-right pass of `re.sub(r'```json\s*', '', cleaned)`:
on a match, the seven matched prefix characters and the following whitespace
run are dropped and scanning resumes after the match. -/
def subFenceJsonF : Nat → List Char → List Char
  | 0, cs => cs
  | _ + 1, [] => []
  | fuel + 1, c :: rest =>
    if c = btick then
      match rest with
      | c2 :: c3 :: 'j' :: 's' :: 'o' :: 'n' :: rest2 =>
        if c2 = btick && c3 = btick then
          subFenceJsonF fuel (rest2.dropWhile isPyWs)
        else c :: subFenceJsonF fuel rest
      | _ => c :: subFenceJsonF fuel rest
    else c :: subFenceJsonF fuel rest

def subFenceJson (cs : List Char) : List Char := subFenceJsonF cs.length cs

/-- One pass of `re.sub(r'```\s*', '', cleaned)`. -/
def subFenceF : Nat → List Char → List Char
  | 0, cs => cs
  | _ + 1, [] => []
  | fuel + 1, c :: rest =>
    if c = btick then
      match rest with
      | c2 :: c3 :: rest2 =>
        if c2 = btick && c3 = btick then
          subFenceF fuel (rest2.dropWhile isPyWs)
        else c :: subFenceF fuel rest
      | _ => c :: subFenceF fuel rest
    else c :: subFenceF fuel rest

def subFence (cs : List Char) : List Char := subFenceF cs.length cs

/-- One pass of `re.sub(r'```', '', cleaned)`. -/
def subTicksF : Nat → List Char → List Char
  | 0, cs => cs
  | _ + 1, [] => []
  | fuel + 1, c :: rest =>
    if c = btick then
      match rest with
      | c2 :: c3 :: rest2 =>
        if c2 = btick && c3 = btick then subTicksF fuel rest2
        else c :: subTicksF fuel rest
      | _ => c :: subTicksF fuel rest
    else c :: subTicksF fuel rest

def subTicks (cs : List Char) : List Char := subTicksF cs.length cs

/-- Python `cleaned.find('{')`: index of the first occurrence, `none` for -1. -/
def pyFind (c : Char) (cs : List Char) : Option Nat :=
  cs.findIdx? (· = c)

/-- Python `cleaned.rfind('}')`: index of the last occurrence, `none` for -1. -/
def pyRfind (c : Char) (cs : List Char) : Option Nat :=
  (cs.reverse.findIdx? (· = c)).map (fun i => cs.length - 1 - i)

/-- One pass of `re.sub(r',(\s*[}\]])', r'\1', json_str)`: a comma whose
following whitespace run is delimited by `}` or `]` is deleted (the
whitespace and the closer — the capture group — are kept), and scanning
resumes after the closer. -/
def removeTCF : Nat → List Char → List Char
  | 0, cs => cs
  | _ + 1, [] => []
  | fuel + 1, c :: rest =>
    if c = ',' then
      match rest.dropWhile isPyWs with
      | d :: rest2 =>
        if d = '}' || d = ']' then
          rest.takeWhile isPyWs ++ d :: removeTCF fuel rest2
        else c :: removeTCF fuel rest
      | [] => c :: removeTCF fuel rest
    else c :: removeTCF fuel rest

def removeTrailingCommas (cs : List Char) : List Char := removeTCF cs.length cs

/-- The values produced by `json.loads` (Python dicts are association lists
in insertion order). -/
inductive JsonValue where
  | str (s : String)
  | num (n : Int)
  | bool (b : Bool)
  | null
  | arr (elems : List JsonValue)
  | obj (fields : List (String × JsonValue))
deriving Repr, Inhabited

/-- `d[k] = v` on a Python dict: an existing key keeps its position and gets
the new value, a fresh key is appended. -/
def objInsert (k : String) (v : JsonValue) (fields : List (String × JsonValue)) :
    List (String × JsonValue) :=
  if fields.any (fun kv => kv.1 = k) then
    fields.map (fun kv => if kv.1 = k then (k, v) else kv)
  else fields ++ [(k, v)]

/-- Key lookup on an object value (`none` on non-objects and absent keys). -/
def objLookup (v : JsonValue) (key : String) : Option JsonValue :=
  match v with
  | .obj fields => (fields.find? (fun kv => kv.1 = key)).map (·.2)
  | _ => none

/-- The top-level keys of an object value. -/
def objKeys (v : JsonValue) : List String :=
  match v with
  | .obj fields => fields.map (·.1)
  | _ => []

def isStrVal : JsonValue → Bool
  | .str _ => true
  | _ => false

/-- The record is an object of objects whose leaves are all strings
(hence contains no array and no deeper nesting). -/
def twoLevelAllStr (v : JsonValue) : Bool :=
  match v with
  | .obj secs =>
    secs.all (fun kv =>
      match kv.2 with
      | .obj fls => fls.all (fun kv2 => isStrVal kv2.2)
      | _ => false)
  | _ => false

/-- `key` appears neither at the top level nor inside any top-level section. -/
def flatNoKey (v : JsonValue) (key : String) : Bool :=
  (objLookup v key).isNone &&
    (match v with
     | .obj secs => secs.all (fun kv => (objLookup kv.2 key).isNone)
     | _ => true)

/-- The body of a JSON string after the opening quote, in strict mode:
ends at an unescaped quote, decodes the short escapes and `\uXXXX`, and
rejects raw control characters below `0x20` (as `json.loads` does by
default). -/
def hexVal (c : Char) : Option Nat :=
  if '0' ≤ c ∧ c ≤ '9' then some (c.toNat - 48)
  else if 'a' ≤ c ∧ c ≤ 'f' then some (c.toNat - 87)
  else if 'A' ≤ c ∧ c ≤ 'F' then some (c.toNat - 55)
  else none

def escChar (c : Char) : Option Char :=
  if c = '"' then some '"'
  else if c = '\\' then some '\\'
  else if c = '/' then some '/'
  else if c = 'b' then some (Char.ofNat 8)
  else if c = 'f' then some (Char.ofNat 12)
  else if c = 'n' then some '\n'
  else if c = 'r' then some '\r'
  else if c = 't' then some '\t'
  else none

def parseStringCharsF : Nat → List Char → Option (List Char × List Char)
  | 0, _ => none
  | _ + 1, [] => none
  | fuel + 1, c :: rest =>
    if c = '"' then some ([], rest)
    else if c = '\\' then
      match rest with
      | 'u' :: h1 :: h2 :: h3 :: h4 :: rest2 =>
        match hexVal h1, hexVal h2, hexVal h3, hexVal h4 with
        | some a, some b, some c3, some d =>
          (parseStringCharsF fuel rest2).map
            (fun p => (Char.ofNat (((a * 16 + b) * 16 + c3) * 16 + d) :: p.1, p.2))
        | _, _, _, _ => none
      | e :: rest2 =>
        match escChar e with
        | some ec => (parseStringCharsF fuel rest2).map (fun p => (ec :: p.1, p.2))
        | none => none
      | [] => none
    else if c.toNat < 32 then none
    else (parseStringCharsF fuel rest).map (fun p => (c :: p.1, p.2))

def parseStringChars (cs : List Char) : Option (List Char × List Char) :=
  parseStringCharsF cs.length cs

/-- Digit run to number (the run is nonempty and all digits at call sites). -/
def digitsToNat (ds : List Char) : Nat :=
  ds.foldl (fun a c => a * 10 + (c.toNat - 48)) 0

/-- Whether the characters after an integer part would make the token a
float (`.`/`e`/`E`); floats are outside the model, see the header note. -/
def floatFollows : List Char → Bool
  | '.' :: _ => true
  | 'e' :: _ => true
  | 'E' :: _ => true
  | _ => false

/-- The unsigned integer part of a JSON number token: `0` or a nonzero digit
followed by a maximal digit run (JSON forbids leading zeros). -/
def parseUInt (cs : List Char) : Option (Nat × List Char) :=
  match cs with
  | '0' :: rest => if floatFollows rest then none else some (0, rest)
  | c :: rest =>
    if c.isDigit then
      let rest2 := rest.dropWhile Char.isDigit
      if floatFollows rest2 then none
      else some (digitsToNat (c :: rest.takeWhile Char.isDigit), rest2)
    else none
  | [] => none

def parseNumberTok (cs : List Char) : Option (JsonValue × List Char) :=
  match cs with
  | '-' :: rest => (parseUInt rest).map (fun p => (.num (-(p.1 : Int)), p.2))
  | _ => (parseUInt cs).map (fun p => (.num (p.1 : Int), p.2))

mutual

/-- One JSON value, leading whitespace allowed, returning the unconsumed
suffix.  Fuel decreases on every recursive call; callers pass enough for any
input of the given length. -/
def parseValue : Nat → List Char → Option (JsonValue × List Char)
  | 0, _ => none
  | fuel + 1, cs =>
    match cs.dropWhile isJsonWs with
    | '{' :: rest =>
      (match rest.dropWhile isJsonWs with
       | '}' :: rest2 => some (.obj [], rest2)
       | rest1 => parseMembers fuel rest1 [])
    | '[' :: rest =>
      (match rest.dropWhile isJsonWs with
       | ']' :: rest2 => some (.arr [], rest2)
       | rest1 => parseElems fuel rest1 [])
    | '"' :: rest => (parseStringChars rest).map (fun p => (.str ⟨p.1⟩, p.2))
    | 't' :: 'r' :: 'u' :: 'e' :: rest => some (.bool true, rest)
    | 'f' :: 'a' :: 'l' :: 's' :: 'e' :: rest => some (.bool false, rest)
    | 'n' :: 'u' :: 'l' :: 'l' :: rest => some (.null, rest)
    | cs1 => parseNumberTok cs1

/-- The members of an object after `{` (at least one member present). -/
def parseMembers : Nat → List Char → List (String × JsonValue) →
    Option (JsonValue × List Char)
  | 0, _, _ => none
  | fuel + 1, cs, acc =>
    match cs.dropWhile isJsonWs with
    | '"' :: rest =>
      (match parseStringChars rest with
       | none => none
       | some (kcs, rest1) =>
         match rest1.dropWhile isJsonWs with
         | ':' :: rest2 =>
           (match parseValue fuel rest2 with
            | none => none
            | some (v, rest3) =>
              match rest3.dropWhile isJsonWs with
              | ',' :: rest4 => parseMembers fuel rest4 (objInsert ⟨kcs⟩ v acc)
              | '}' :: rest4 => some (.obj (objInsert ⟨kcs⟩ v acc), rest4)
              | _ => none)
         | _ => none)
    | _ => none

/-- The elements of an array after `[` (at least one element present). -/
def parseElems : Nat → List Char → List JsonValue →
    Option (JsonValue × List Char)
  | 0, _, _ => none
  | fuel + 1, cs, acc =>
    match parseValue fuel cs with
    | none => none
    | some (v, rest) =>
      match rest.dropWhile isJsonWs with
      | ',' :: rest2 => parseElems fuel rest2 (acc ++ [v])
      | ']' :: rest2 => some (.arr (acc ++ [v]), rest2)
      | _ => none

end

/-- `json.loads`: parse one value and require only whitespace after it
(`none` models `json.JSONDecodeError`). -/
def json_loads (s : String) : Option JsonValue :=
  match parseValue (2 * s.data.length + 2) s.data with
  | some (v, rest) => if (rest.dropWhile isJsonWs).isEmpty then some v else none
  | none => none

/-- Case-insensitive (ASCII lowercase, as `re.IGNORECASE` on these ASCII
keys) consumption of `key` from the front of the text. -/
def matchKeyCI : List Char → List Char → Option (List Char)
  | [], cs => some cs
  | _ :: _, [] => none
  | k :: ks, c :: cs => if c.toLower = k.toLower then matchKeyCI ks cs else none

/-- Consume one literal quote character. -/
def expectQuote : List Char → Option (List Char)
  | c :: rest => if c = '"' then some rest else none
  | [] => none

/-- Consume one literal colon character. -/
def expectColon : List Char → Option (List Char)
  | c :: rest => if c = ':' then some rest else none
  | [] => none

/-- The capture group `([^"]+)"`: the greedy `[^"]+` stops at the first
quote, needs at least one character, and the closing quote must exist. -/
def readValue (cs : List Char) : Option (List Char) :=
  let v := cs.takeWhile (fun c => !(c = '"'))
  match cs.dropWhile (fun c => !(c = '"')) with
  | _ :: _ => if v.isEmpty then none else some v
  | [] => none

/-- Attempt of the pattern `"<key>":\s*"([^"]+)"` (flags `IGNORECASE`,
`DOTALL`) anchored at the head of `cs`; returns the capture group. -/
def tryFieldAt (key : List Char) (cs : List Char) : Option (List Char) :=
  (expectQuote cs).bind fun r1 =>
  (matchKeyCI key r1).bind fun r2 =>
  (expectQuote r2).bind fun r3 =>
  (expectColon r3).bind fun r4 =>
  (expectQuote (r4.dropWhile isPyWs)).bind fun r5 =>
  readValue r5

/-- `re.search`: the leftmost position where the field pattern matches. -/
def searchField (key : List Char) : List Char → Option (List Char)
  | [] => none
  | c :: rest =>
    match tryFieldAt key (c :: rest) with
    | some v => some v
    | none => searchField key rest

/-- `extract_field` from `src/app.py`, specialised to the twelve call sites
whose pattern is `"<key>":\s*"([^"]+)"`: group 1 of the first match, or the
sentinel. -/
def extract_field (text : String) (key : String) : String :=
  match searchField key.data text.data with
  | some v => ⟨v⟩
  | none => "Not Available"

/-- Attempt of the `signal_score` pattern `"signal_score":\s*"?(\d+)"?`
anchored at the head of `cs`: the quote before the digits is optional (and
so is the one after — it constrains nothing). -/
def tryScoreAt (cs : List Char) : Option (List Char) :=
  (expectQuote cs).bind fun r1 =>
  (matchKeyCI "signal_score".data r1).bind fun r2 =>
  (expectQuote r2).bind fun r3 =>
  (expectColon r3).bind fun r4 =>
  let r5 := r4.dropWhile isPyWs
  let r6 := match expectQuote r5 with
            | some r => r
            | none => r5
  let ds := r6.takeWhile Char.isDigit
  if ds.isEmpty then none else some ds

def searchScore : List Char → Option (List Char)
  | [] => none
  | c :: rest =>
    match tryScoreAt (c :: rest) with
    | some v => some v
    | none => searchScore rest

/-- `extract_field` at the thirteenth call site, whose pattern is
`"signal_score":\s*"?(\d+)"?`. -/
def extract_signal_score (text : String) : String :=
  match searchScore text.data with
  | some ds => ⟨ds⟩
  | none => "Not Available"

/-- `manual_data` from `src/app.py` lines 292-317: the fallback record.
It has exactly these five sections and thirteen scalar string fields; the
nested helper `extract_array` of the source is never invoked, so no list
field is produced. -/
def fallbackRecord (t : String) : JsonValue :=
  .obj [
    ("company_overview", .obj [
      ("name", .str (extract_field t "name")),
      ("founding_year", .str (extract_field t "founding_year")),
      ("stage", .str (extract_field t "stage")),
      ("one_liner", .str (extract_field t "one_liner")),
      ("industry", .str (extract_field t "industry"))]),
    ("problem_and_market", .obj [
      ("market_size_tam", .str (extract_field t "market_size_tam")),
      ("problem_statement", .str (extract_field t "problem_statement"))]),
    ("team_and_traction", .obj [
      ("customer_count", .str (extract_field t "customer_count")),
      ("arr_mrr", .str (extract_field t "arr_mrr"))]),
    ("financials", .obj [
      ("current_ask", .str (extract_field t "current_ask")),
      ("funding_raised", .str (extract_field t "funding_raised"))]),
    ("recommendation", .obj [
      ("signal_score", .str (extract_signal_score t)),
      ("investment_decision", .str (extract_field t "investment_decision")),
      ("rationale", .str (extract_field t "rationale"))])]

/-- The exception that can cross `json.loads` in the model
(`json.JSONDecodeError`, the only class the source's `except` clause names). -/
inductive PyExc where
  | decodeError
deriving Repr

/-- Lines 264-274 of the source: strip, remove fences, locate the outermost
`{`/`}` span, and apply the trailing-comma repair; `none` when the code
falls through the `if` without attempting `json.loads`. -/
def candidateOf (t : String) : Option (List Char) :=
  let cleaned := subTicks (subFence (subFenceJson (pythonStrip t.data)))
  match pyFind '{' cleaned, pyRfind '}' cleaned with
  | some s, some e =>
    if s < e + 1 then
      some (removeTrailingCommas ((cleaned.drop s).take (e + 1 - s)))
    else none
  | _, _ => none

/-- The strict tier of `parse_json_response`: `.ok (some v)` when
`json.loads` succeeds, `.ok none` when the `{`/`}` span test fails (the code
falls through without raising), `.error` when `json.loads` raises. -/
def tier1 (t : String) : Except PyExc (Option JsonValue) :=
  match candidateOf t with
  | some jstr =>
    (match json_loads ⟨jstr⟩ with
     | some v => .ok (some v)
     | none => .error .decodeError)
  | none => .ok none

/-- `parse_json_response` with the exception flow explicit: the
`except json.JSONDecodeError` clause catches the decode error and control
continues with the fallback, so every branch is `.ok`. -/
def parse_json_response_exc (t : String) : Except PyExc JsonValue :=
  match tier1 t with
  | .ok (some v) => .ok v
  | .ok none => .ok (fallbackRecord t)
  | .error .decodeError => .ok (fallbackRecord t)

/-- `parse_json_response` from `src/app.py` lines 261-319. -/
def parse_json_response (t : String) : JsonValue :=
  match tier1 t with
  | .ok (some v) => v
  | _ => fallbackRecord t

/-- The successfully parsed tier-1 value, when the strict tier is taken. -/
def tier1Result (t : String) : Option JsonValue :=
  match tier1 t with
  | .ok (some v) => some v
  | _ => none

/-- First maximal digit run of the text (`re.findall(r'\d+', s)[0]`). -/
def firstDigitRun : List Char → Option (List Char)
  | [] => none
  | c :: rest =>
    if c.isDigit then some (c :: rest.takeWhile Char.isDigit)
    else firstDigitRun rest

/-- `parse_rating` from `src/app.py` lines 241-259.  The input is the field
value: `none` models Python `None`, strings model themselves (`str()` is the
identity on them). -/
def parse_rating (rating_value : Option String) : Option Nat :=
  match rating_value with
  | none => none
  | some s =>
    if s = "Not Available" then none
    else
      let s1 := if s.data.contains '/' then s.data.takeWhile (fun c => !(c = '/')) else s.data
      match firstDigitRun s1 with
      | some ds =>
        let n := digitsToNat ds
        if 1 ≤ n ∧ n ≤ 5 then some n else none
      | none => none

/-- For `re.sub(r'\*\*(.*?)\*\*', ...)` and `re.sub(r'__(.*?)__', ...)`:
from the position after an opening double delimiter, the shortest in-line
(`.` does not cross a newline) body followed by the closing double
delimiter, with the suffix after the close. -/
def findClose2 (d : Char) : List Char → Option (List Char × List Char)
  | c1 :: c2 :: rest =>
    if c1 = d && c2 = d then some ([], rest)
    else if c1 = '\n' then none
    else (findClose2 d (c2 :: rest)).map (fun p => (c1 :: p.1, p.2))
  | [_] => none
  | [] => none

/-- One pass of `re.sub(r'\*\*(.*?)\*\*', r'\1', text)` (for `d = '*'`) or
`re.sub(r'__(.*?)__', r'\1', text)` (for `d = '_'`). -/
def subPair2F (d : Char) : Nat → List Char → List Char
  | 0, cs => cs
  | _ + 1, [] => []
  | fuel + 1, c1 :: rest =>
    if c1 = d then
      match rest with
      | c2 :: rest2 =>
        if c2 = d then
          match findClose2 d rest2 with
          | some (content, after) => content ++ subPair2F d fuel after
          | none => c1 :: subPair2F d fuel rest
        else c1 :: subPair2F d fuel rest
      | [] => [c1]
    else c1 :: subPair2F d fuel rest

def subPair2 (d : Char) (cs : List Char) : List Char := subPair2F d cs.length cs

/-- For `re.sub(r'\*(.*?)\*', ...)`: shortest in-line body up to a closing
single star. -/
def findClose1 : List Char → Option (List Char × List Char)
  | c :: rest =>
    if c = '*' then some ([], rest)
    else if c = '\n' then none
    else (findClose1 rest).map (fun p => (c :: p.1, p.2))
  | [] => none

/-- One pass of `re.sub(r'\*(.*?)\*', r'\1', text)`. -/
def subStars1F : Nat → List Char → List Char
  | 0, cs => cs
  | _ + 1, [] => []
  | fuel + 1, c1 :: rest =>
    if c1 = '*' then
      match findClose1 rest with
      | some (content, after) => content ++ subStars1F fuel after
      | none => c1 :: subStars1F fuel rest
    else c1 :: subStars1F fuel rest

def subStars1 (cs : List Char) : List Char := subStars1F cs.length cs

/-- One pass of `re.sub(r'\s+', ' ', text)`: each whitespace run becomes a
single space. -/
def collapseWsF : Nat → List Char → List Char
  | 0, cs => cs
  | _ + 1, [] => []
  | fuel + 1, c :: rest =>
    if isPyWs c then ' ' :: collapseWsF fuel (rest.dropWhile isPyWs)
    else c :: collapseWsF fuel rest

def collapseWs (cs : List Char) : List Char := collapseWsF cs.length cs

/-- One pass of `re.sub(r'([a-z])([A-Z])', r'\1 \2', text)`; matches do not
overlap, scanning resumes after the pair. -/
def camelSub : List Char → List Char
  | a :: b :: rest =>
    if a.isLower && b.isUpper then a :: ' ' :: b :: camelSub rest
    else a :: camelSub (b :: rest)
  | cs => cs

/-- One pass of `re.sub(r'(\d)([A-Za-z])', r'\1 \2', text)`. -/
def digitAlphaSub : List Char → List Char
  | a :: b :: rest =>
    if a.isDigit && b.isAlpha then a :: ' ' :: b :: digitAlphaSub rest
    else a :: digitAlphaSub (b :: rest)
  | cs => cs

/-- One pass of `re.sub(r'([A-Za-z])(\d)', r'\1 \2', text)`. -/
def alphaDigitSub : List Char → List Char
  | a :: b :: rest =>
    if a.isAlpha && b.isDigit then a :: ' ' :: b :: alphaDigitSub rest
    else a :: alphaDigitSub (b :: rest)
  | cs => cs

/-- `clean_text_formatting` from `src/app.py` lines 224-239. Call sites can
pass `None` (a `dict.get` miss) as well as a string, so the input is
`Option String`; the guard `if not text or text == "Not Available"` returns
the falsy inputs `None` and `""` and the sentinel unchanged. -/
def clean_text_formatting (text : Option String) : Option String :=
  match text with
  | none => none
  | some s =>
    if s = "" || s = "Not Available" then some s
    else
      let cs := s.data
      let cs := subPair2 '*' cs
      let cs := subStars1 cs
      let cs := subPair2 '_' cs
      let cs := collapseWs cs
      let cs := if 50 < cs.length then alphaDigitSub (digitAlphaSub (camelSub cs)) else cs
      some ⟨pythonStrip cs⟩

/-- A field value in the shape of the §3 schema: a scalar string, a flat
list of strings, or a list of flat string objects (the founders list). -/
inductive FieldVal where
  | s (v : String)
  | list (vs : List String)
  | olist (os : List (List (String × String)))
deriving Repr

/-- A top-level section of the schema: an object of fields, or an array of
flat string objects (the `founders` section). -/
inductive SectVal where
  | obj (fields : List (String × FieldVal))
  | olist (os : List (List (String × String)))
deriving Repr

/-- Comma-separated serialization of a list of items (`", "` separator,
as in the compact JSON layouts the schema shows). -/
def serializeItems (item : α → List Char) : List α → List Char
  | [] => []
  | [x] => item x
  | x :: y :: rest => item x ++ ',' :: ' ' :: serializeItems item (y :: rest)

/-- Plain JSON string literal (no escapes; the goodness predicate below
restricts contents so that none are needed). -/
def serializeStr (s : String) : List Char := '"' :: s.data ++ ['"']

def serializePair (kv : String × String) : List Char :=
  serializeStr kv.1 ++ ':' :: ' ' :: serializeStr kv.2

def serializeFlatObj (o : List (String × String)) : List Char :=
  '{' :: serializeItems serializePair o ++ ['}']

def serializeFieldVal : FieldVal → List Char
  | .s v => serializeStr v
  | .list vs => '[' :: serializeItems serializeStr vs ++ [']']
  | .olist os => '[' :: serializeItems serializeFlatObj os ++ [']']

def serializeField (kv : String × FieldVal) : List Char :=
  serializeStr kv.1 ++ ':' :: ' ' :: serializeFieldVal kv.2

def serializeSect (s : List (String × FieldVal)) : List Char :=
  '{' :: serializeItems serializeField s ++ ['}']

def serializeSectVal : SectVal → List Char
  | .obj fields => serializeSect fields
  | .olist os => '[' :: serializeItems serializeFlatObj os ++ [']']

def serializeTopField (kv : String × SectVal) : List Char :=
  serializeStr kv.1 ++ ':' :: ' ' :: serializeSectVal kv.2

/-- A syntactically valid JSON object text in the section → field layout of
the schema. -/
def serializeRec (r : List (String × SectVal)) : List Char :=
  '{' :: serializeItems serializeTopField r ++ ['}']

/-- The same text with one trailing comma inserted before the final `}`. -/
def serializeRecTC (r : List (String × SectVal)) : List Char :=
  '{' :: serializeItems serializeTopField r ++ [',', '}']

/-- The `json.loads` image of a schema-shaped record. -/
def jsonOfFieldVal : FieldVal → JsonValue
  | .s v => .str v
  | .list vs => .arr (vs.map .str)
  | .olist os => .arr (os.map (fun o => .obj (o.map (fun kv => (kv.1, .str kv.2)))))

def jsonOfSect (s : List (String × FieldVal)) : JsonValue :=
  .obj (s.map (fun kv => (kv.1, jsonOfFieldVal kv.2)))

def jsonOfSectVal : SectVal → JsonValue
  | .obj fields => jsonOfSect fields
  | .olist os =>
    .arr (os.map (fun o => .obj (o.map (fun kv => (kv.1, .str kv.2)))))

def jsonOfRec (r : List (String × SectVal)) : JsonValue :=
  .obj (r.map (fun kv => (kv.1, jsonOfSectVal kv.2)))

/-- Characters that serialize to themselves inside a JSON string literal and
survive the fence-stripping passes: not a quote, not a backslash, not a
control character, not a backtick. -/
def charOk (c : Char) : Bool :=
  !(c = '"') && !(c = '\\') && decide (32 ≤ c.toNat) && !(c = btick)

/-- No comma in the text is followed (after a whitespace run) by `}` or `]`,
and no comma's whitespace run reaches the end of the text — exactly the
guarantee that `removeTrailingCommas` leaves every position alone. -/
def commaSafe : List Char → Bool
  | [] => true
  | c :: rest =>
    (if c = ',' then
      match rest.dropWhile isPyWs with
      | d :: _ => !(d = '}' || d = ']')
      | [] => false
     else true) && commaSafe rest

/-- A string usable verbatim as a JSON literal whose presence triggers none
of the textual repairs: plain characters, and any comma inside it resolves
(before the closing quote) to a non-closing character. -/
def goodStr (s : String) : Bool :=
  s.data.all charOk && commaSafe (s.data ++ ['"'])

def nodupKeys : List String → Bool
  | [] => true
  | k :: ks => !(ks.contains k) && nodupKeys ks

def goodFlatObj (o : List (String × String)) : Bool :=
  o.all (fun kv => goodStr kv.1 && goodStr kv.2) && nodupKeys (o.map (·.1))

def goodFieldVal : FieldVal → Bool
  | .s v => goodStr v
  | .list vs => vs.all goodStr
  | .olist os => os.all goodFlatObj

def goodSect (s : List (String × FieldVal)) : Bool :=
  s.all (fun kv => goodStr kv.1 && goodFieldVal kv.2) && nodupKeys (s.map (·.1))

def goodSectVal : SectVal → Bool
  | .obj fields => goodSect fields
  | .olist os => os.all goodFlatObj

def goodRec (r : List (String × SectVal)) : Bool :=
  r.all (fun kv => goodStr kv.1 && goodSectVal kv.2) && nodupKeys (r.map (·.1))

/-- Declarative reading of one match of `"<key>":\s*"([^"]+)"` (IGNORECASE,
DOTALL) starting at the head of `suf`: a quoted key equal to `key` up to
ASCII case, a colon, a whitespace run, and a nonempty quoted value. -/
def FieldOccursAt (key suf v : List Char) : Prop :=
  ∃ k ws tail,
    suf = '"' :: (k ++ '"' :: ':' :: (ws ++ '"' :: (v ++ '"' :: tail))) ∧
    k.length = key.length ∧
    (∀ p ∈ k.zip key, p.1.toLower = p.2.toLower) ∧
    (∀ c ∈ ws, isPyWs c = true) ∧
    v ≠ [] ∧ (∀ c ∈ v, c ≠ '"')

/-- Declarative reading of the spec's rating rule: in the part of the text
before the first `/`, the first maximal digit run is `ds`, and its value is
in the closed range 1-5. -/
def RatingSpec (s : String) (n : Nat) : Prop :=
  ∃ pre ds post,
    s.data.takeWhile (fun c => !(c = '/')) = pre ++ ds ++ post ∧
    (∀ c ∈ pre, c.isDigit = false) ∧
    ds ≠ [] ∧ (∀ c ∈ ds, c.isDigit = true) ∧
    (post = [] ∨ ∃ d rest, post = d :: rest ∧ d.isDigit = false) ∧
    n = digitsToNat ds ∧ 1 ≤ n ∧ n ≤ 5

/-- `takeWhile` passes over a prefix on which the predicate holds. -/
theorem takeWhile_append_all {p : Char → Bool} {l : List Char}
    (h : ∀ c ∈ l, p c = true) (l₂ : List Char) :
    (l ++ l₂).takeWhile p = l ++ l₂.takeWhile p := by
  induction l with
  | nil => rfl
  | cons c cs ih =>
    have hc : p c = true := h c (List.mem_cons_self c cs)
    simp [List.cons_append, List.takeWhile_cons, hc,
      ih (fun d hd => h d (List.mem_cons_of_mem c hd))]

/-- `dropWhile` drops a prefix on which the predicate holds. -/
theorem dropWhile_append_all {p : Char → Bool} {l : List Char}
    (h : ∀ c ∈ l, p c = true) (l₂ : List Char) :
    (l ++ l₂).dropWhile p = l₂.dropWhile p := by
  induction l with
  | nil => rfl
  | cons c cs ih =>
    have hc : p c = true := h c (List.mem_cons_self c cs)
    simp only [List.cons_append, List.dropWhile_cons, hc]
    exact ih (fun d hd => h d (List.mem_cons_of_mem c hd))

theorem dropWhile_cons_neg {p : Char → Bool} {c : Char} (l : List Char)
    (h : p c = false) : (c :: l).dropWhile p = c :: l := by
  simp [List.dropWhile_cons, h]

theorem takeWhile_cons_neg {p : Char → Bool} {c : Char} (l : List Char)
    (h : p c = false) : (c :: l).takeWhile p = [] := by
  simp [List.takeWhile_cons, h]

/-- If `tier1` is not taken or fails, the code reaches the manual fallback. -/
theorem parse_json_response_of_tier1_none (t : String)
    (h : tier1Result t = none) : parse_json_response t = fallbackRecord t := by
  unfold parse_json_response
  unfold tier1Result at h
  cases htier : tier1 t with
  | ok o =>
    cases o with
    | some v => rw [htier] at h; exact absurd h (by simp)
    | none => rfl
  | error e => rfl

/-- C10: `clean_text_formatting` returns the sentinel `"Not Available"`
and both falsy inputs — `None` and the empty string — unchanged: the early
guard fires before any of the markdown-stripping and spacing rules. -/
theorem clean_text_formatting_trivial_inputs (t : Option String)
    (h : t = none ∨ t = some "" ∨ t = some "Not Available") :
    clean_text_formatting t = t := by
  rcases h with h | h | h
  · subst h; rfl
  · subst h; rfl
  · subst h; rfl

theorem clean_text_formatting_trivial_inputs_witness :
    clean_text_formatting none = none ∧
    clean_text_formatting (some "") = some "" ∧
    clean_text_formatting (some "Not Available") = some "Not Available" :=
  ⟨clean_text_formatting_trivial_inputs none (Or.inl rfl),
   clean_text_formatting_trivial_inputs (some "") (Or.inr (Or.inl rfl)),
   clean_text_formatting_trivial_inputs (some "Not Available")
     (Or.inr (Or.inr rfl))⟩

/-- C2: `parse_json_response` never lets an exception cross its boundary:
with the exception flow explicit, every input yields `.ok` of the very
record the total function returns (the `except json.JSONDecodeError` clause
covers the only raise point of the model; resource-exhaustion errors such
as `RecursionError` are outside the model). -/
theorem parse_json_response_never_raises (t : String) :
    parse_json_response_exc t = Except.ok (parse_json_response t) := by
  unfold parse_json_response_exc parse_json_response
  cases tier1 t with
  | ok o => cases o <;> rfl
  | error e => cases e; rfl

/-- C1, counterexample: on `"{}"` tier 1 succeeds and the returned record is
the parsed object itself, with no `company_overview` (or any other) section
filled in; and when the fallback runs (input `""`), the record has no
`founders` section either — so the "every recognized section is always
present" claim fails on both tiers. -/
theorem tier1_no_defaulting_cex :
    parse_json_response "{}" = JsonValue.obj [] ∧
    objLookup (parse_json_response "{}") "company_overview" = none ∧
    tier1Result "{}" = some (JsonValue.obj []) ∧
    tier1Result "" = none ∧
    objLookup (parse_json_response "") "founders" = none :=
  ⟨rfl, rfl, rfl, rfl, rfl⟩

/-- C1, amended: when tier 1's strict parse succeeds the parsed object is
returned verbatim (absent sections are not defaulted), and when the
fallback runs it fills only its five fixed sections — never `founders`,
`unique_differentiator` or `investment_thesis`. -/
theorem tier1_verbatim_fallback_five_sections :
    (∀ (t : String) (v : JsonValue), tier1Result t = some v →
      parse_json_response t = v) ∧
    (∀ t : String, tier1Result t = none →
      objLookup (parse_json_response t) "founders" = none ∧
      objLookup (parse_json_response t) "unique_differentiator" = none ∧
      objLookup (parse_json_response t) "investment_thesis" = none) := by
  constructor
  · intro t v h
    unfold parse_json_response
    unfold tier1Result at h
    cases htier : tier1 t with
    | ok o =>
      cases o with
      | some w => rw [htier] at h; simp at h; simpa using h
      | none => rw [htier] at h; exact absurd h (by simp)
    | error e => rw [htier] at h; exact absurd h (by simp)
  · intro t h
    rw [parse_json_response_of_tier1_none t h]
    exact ⟨rfl, rfl, rfl⟩

theorem tier1_verbatim_fallback_five_sections_witness :
    tier1Result "{}" = some (JsonValue.obj []) ∧
    parse_json_response "{}" = JsonValue.obj [] :=
  ⟨rfl, tier1_verbatim_fallback_five_sections.1 "{}" (JsonValue.obj []) rfl⟩

/-- C9: whenever the strict tier is not taken, the returned record is the
manual fallback: exactly the five sections `company_overview`,
`problem_and_market`, `team_and_traction`, `financials`, `recommendation`,
each with its fixed key set, all values strings; no `founders`,
`unique_differentiator` or `investment_thesis` section and no list value. -/
theorem fallback_record_shape (t : String) (h : tier1Result t = none) :
    parse_json_response t = fallbackRecord t ∧
    objKeys (parse_json_response t) =
      ["company_overview", "problem_and_market", "team_and_traction",
        "financials", "recommendation"] ∧
    twoLevelAllStr (parse_json_response t) = true ∧
    (objLookup (parse_json_response t) "company_overview").map objKeys =
      some ["name", "founding_year", "stage", "one_liner", "industry"] ∧
    (objLookup (parse_json_response t) "problem_and_market").map objKeys =
      some ["market_size_tam", "problem_statement"] ∧
    (objLookup (parse_json_response t) "team_and_traction").map objKeys =
      some ["customer_count", "arr_mrr"] ∧
    (objLookup (parse_json_response t) "financials").map objKeys =
      some ["current_ask", "funding_raised"] ∧
    (objLookup (parse_json_response t) "recommendation").map objKeys =
      some ["signal_score", "investment_decision", "rationale"] ∧
    objLookup (parse_json_response t) "founders" = none ∧
    objLookup (parse_json_response t) "unique_differentiator" = none ∧
    objLookup (parse_json_response t) "investment_thesis" = none := by
  rw [parse_json_response_of_tier1_none t h]
  exact ⟨rfl, rfl, rfl, rfl, rfl, rfl, rfl, rfl, rfl, rfl, rfl⟩

theorem fallback_record_shape_witness :
    tier1Result "no json here" = none ∧
    objKeys (parse_json_response "no json here") =
      ["company_overview", "problem_and_market", "team_and_traction",
        "financials", "recommendation"] :=
  ⟨rfl, (fallback_record_shape "no json here" rfl).2.1⟩

/-- C5, counterexample: on a tier-1-failing text that does contain a
`strengths` array of two quoted strings, the fallback produces no
`strengths` field at all (the source's `extract_array` helper is defined
but never invoked), rather than the claimed list `["Fast", "Cheap"]`. -/
theorem fallback_no_list_extraction_cex :
    tier1Result "\"strengths\": [\"Fast\", \"Cheap\"]" = none ∧
    parse_json_response "\"strengths\": [\"Fast\", \"Cheap\"]" =
      fallbackRecord "\"strengths\": [\"Fast\", \"Cheap\"]" ∧
    flatNoKey (parse_json_response "\"strengths\": [\"Fast\", \"Cheap\"]")
      "strengths" = true :=
  ⟨rfl, rfl, rfl⟩

/-- C5, amended: whenever tier 1 fails, the fallback reconstructs no list
field whatsoever — the known flat list fields of the schema are absent from
the record and every produced value is a scalar string. -/
theorem fallback_drops_all_list_fields (t : String)
    (h : tier1Result t = none) :
    flatNoKey (parse_json_response t) "strengths" = true ∧
    flatNoKey (parse_json_response t) "risks" = true ∧
    flatNoKey (parse_json_response t) "key_customers" = true ∧
    flatNoKey (parse_json_response t) "partnerships" = true ∧
    flatNoKey (parse_json_response t) "comparable_companies" = true ∧
    twoLevelAllStr (parse_json_response t) = true := by
  rw [parse_json_response_of_tier1_none t h]
  exact ⟨rfl, rfl, rfl, rfl, rfl, rfl⟩

theorem fallback_drops_all_list_fields_witness :
    tier1Result "\"risks\": [\"a\", \"b\"] oops" = none ∧
    flatNoKey (parse_json_response "\"risks\": [\"a\", \"b\"] oops")
      "risks" = true :=
  ⟨rfl, (fallback_drops_all_list_fields "\"risks\": [\"a\", \"b\"] oops" rfl).2.1⟩

/-- The trailing-comma repair only deletes characters (for any fuel). -/
theorem removeTCF_sublist (fuel : Nat) (cs : List Char) :
    List.Sublist (removeTCF fuel cs) cs := by
  induction fuel generalizing cs with
  | zero => exact List.Sublist.refl cs
  | succ fuel ih =>
    cases cs with
    | nil => exact List.Sublist.refl []
    | cons c rest =>
      simp only [removeTCF]
      split
      · split
        next d rest2 h =>
          split
          · have h1 : List.Sublist (d :: removeTCF fuel rest2) (d :: rest2) :=
              (ih rest2).cons₂ d
            have h2 := h1.append_left (rest.takeWhile isPyWs)
            have h3 : rest.takeWhile isPyWs ++ d :: rest2 = rest := by
              rw [← h]; exact List.takeWhile_append_dropWhile isPyWs rest
            rw [h3] at h2
            exact h2.cons c
          · exact (ih rest).cons₂ c
        next h => exact (ih rest).cons₂ c
      · exact (ih rest).cons₂ c

/-- C3, counterexample: a candidate whose `]` is followed by a line starting
with a quote and no separating comma is passed to the strict parse
completely unchanged (no comma is inserted anywhere), and tier 1 therefore
fails on it. -/
theorem no_missing_comma_repair_cex :
    candidateOf "\x7b\"a\": [\"x\"]\n\"b\": \"y\"\x7d" =
      some "\x7b\"a\": [\"x\"]\n\"b\": \"y\"\x7d".data ∧
    tier1Result "\x7b\"a\": [\"x\"]\n\"b\": \"y\"\x7d" = none :=
  ⟨rfl, rfl⟩

/-- C3, amended: the only textual repair applied to the tier-1 candidate is
the trailing-comma removal, and it can only delete characters — the
repaired candidate is always a sublist of the unrepaired one, so no
missing-comma insertion ever happens. -/
theorem trailing_comma_repair_only_deletes (cs : List Char) :
    List.Sublist (removeTrailingCommas cs) cs :=
  removeTCF_sublist cs.length cs

/-- C6, counterexample: on a tier-1-failing text that does contain a
`"burn_rate": "50k"` pair, the fallback record has no `burn_rate` field at
all — its financials section holds only `current_ask` and `funding_raised`,
not "the full set of financial metrics the schema enumerates". -/
theorem fallback_misses_burn_rate_cex :
    tier1Result "\"burn_rate\": \"50k\", \"churn_rate\": \"5%\"" = none ∧
    flatNoKey
      (parse_json_response "\"burn_rate\": \"50k\", \"churn_rate\": \"5%\"")
      "burn_rate" = true ∧
    (objLookup
      (parse_json_response "\"burn_rate\": \"50k\", \"churn_rate\": \"5%\"")
      "financials").map objKeys = some ["current_ask", "funding_raised"] :=
  ⟨rfl, rfl, rfl⟩

theorem dropWhile_head_neg {p : Char → Bool} :
    ∀ {l : List Char} {d : Char} {rest : List Char},
      l.dropWhile p = d :: rest → p d = false := by
  intro l
  induction l with
  | nil => intro d rest h; simp [List.dropWhile] at h
  | cons c cs ih =>
    intro d rest h
    by_cases hc : p c = true
    · simp only [List.dropWhile_cons, hc, if_true] at h
      exact ih h
    · have hc' : p c = false := by simpa using hc
      simp only [List.dropWhile_cons, hc', Bool.false_eq_true, if_false] at h
      injection h with h1 _
      rw [← h1]
      exact hc'

theorem mem_takeWhile_pred {p : Char → Bool} :
    ∀ {l : List Char} {c : Char}, c ∈ l.takeWhile p → p c = true := by
  intro l
  induction l with
  | nil => intro c h; simp [List.takeWhile] at h
  | cons a as ih =>
    intro c h
    by_cases ha : p a = true
    · simp only [List.takeWhile_cons, ha, if_true, List.mem_cons] at h
      rcases h with h | h
      · rwa [h]
      · exact ih h
    · have ha' : p a = false := by simpa using ha
      simp [List.takeWhile_cons, ha'] at h

theorem takeWhile_all_eq_self {p : Char → Bool} {l : List Char}
    (h : ∀ c ∈ l, p c = true) : l.takeWhile p = l := by
  have := takeWhile_append_all h ([] : List Char)
  simpa using this

/-- Soundness of the first-digit-run scan: its result really is the first
maximal digit run of the text. -/
theorem firstDigitRun_sound :
    ∀ {cs ds : List Char}, firstDigitRun cs = some ds →
      ∃ pre post, cs = pre ++ ds ++ post ∧ (∀ c ∈ pre, c.isDigit = false) ∧
        ds ≠ [] ∧ (∀ c ∈ ds, c.isDigit = true) ∧
        (post = [] ∨ ∃ d rest, post = d :: rest ∧ d.isDigit = false) := by
  intro cs
  induction cs with
  | nil => intro ds h; simp [firstDigitRun] at h
  | cons c rest ih =>
    intro ds h
    by_cases hc : c.isDigit = true
    · rw [firstDigitRun, if_pos hc] at h
      have hds : ds = c :: rest.takeWhile Char.isDigit := by
        injection h with h'; exact h'.symm
      refine ⟨[], rest.dropWhile Char.isDigit, ?_, by simp, by simp [hds], ?_, ?_⟩
      · simp only [hds, List.nil_append, List.cons_append, List.cons.injEq, true_and]
        exact (List.takeWhile_append_dropWhile Char.isDigit rest).symm
      · intro x hx
        rw [hds, List.mem_cons] at hx
        rcases hx with hx | hx
        · rwa [hx]
        · exact mem_takeWhile_pred hx
      · cases hpost : rest.dropWhile Char.isDigit with
        | nil => exact Or.inl rfl
        | cons d r => exact Or.inr ⟨d, r, rfl, dropWhile_head_neg hpost⟩
    · have hc' : c.isDigit = false := by simpa using hc
      rw [firstDigitRun, if_neg (by simp [hc'])] at h
      obtain ⟨pre, post, he, hpre, hne, hds, hpost⟩ := ih h
      exact ⟨c :: pre, post, by simp [he], by
        intro x hx
        rcases List.mem_cons.mp hx with hx | hx
        · rwa [hx]
        · exact hpre x hx, hne, hds, hpost⟩

/-- Completeness of the first-digit-run scan. -/
theorem firstDigitRun_complete :
    ∀ {pre ds post : List Char},
      (∀ c ∈ pre, c.isDigit = false) → ds ≠ [] → (∀ c ∈ ds, c.isDigit = true) →
      (post = [] ∨ ∃ d rest, post = d :: rest ∧ d.isDigit = false) →
      firstDigitRun (pre ++ ds ++ post) = some ds := by
  intro pre
  induction pre with
  | nil =>
    intro ds post _ hne hds hpost
    cases ds with
    | nil => exact absurd rfl hne
    | cons d ds' =>
      have hd : d.isDigit = true := hds d (List.mem_cons_self d ds')
      have hds' : ∀ c ∈ ds', c.isDigit = true :=
        fun c hc => hds c (List.mem_cons_of_mem d hc)
      have htail : (ds' ++ post).takeWhile Char.isDigit = ds' := by
        rw [takeWhile_append_all hds']
        rcases hpost with h | ⟨e, r, he, hne'⟩
        · simp [h]
        · rw [he, takeWhile_cons_neg r hne', List.append_nil]
      simp only [List.nil_append, List.cons_append]
      rw [firstDigitRun, if_pos hd, htail]
  | cons c pre' ih =>
    intro ds post hpre hne hds hpost
    have hc : c.isDigit = false := hpre c (List.mem_cons_self c pre')
    have hpre' : ∀ x ∈ pre', x.isDigit = false :=
      fun x hx => hpre x (List.mem_cons_of_mem c hx)
    simp only [List.cons_append]
    rw [firstDigitRun, if_neg (by simp [hc])]
    exact ih hpre' hne hds hpost

theorem beforeSlash_eq (s : String) :
    (if s.data.contains '/' then s.data.takeWhile (fun c => !(c = '/'))
     else s.data) = s.data.takeWhile (fun c => !(c = '/')) := by
  by_cases h : s.data.contains '/'
  · rw [if_pos h]
  · rw [if_neg h]
    symm
    apply takeWhile_all_eq_self
    intro c hc
    have h' : ¬('/' ∈ s.data) := by simpa using h
    simp only [Bool.not_eq_true', decide_eq_false_iff_not]
    intro heq
    exact h' (heq ▸ hc)

/-- C7: the rating parser returns `n` (obtained by splitting on `/` and
taking the first digit run) exactly when `1 ≤ n ≤ 5`, and otherwise the
distinct "no valid rating" state `none`; the spec's concrete examples all
normalize as stated. -/
theorem parse_rating_spec :
    parse_rating none = none ∧
    parse_rating (some "Not Available") = none ∧
    (∀ (s : String) (n : Nat), s ≠ "Not Available" →
      (parse_rating (some s) = some n ↔ RatingSpec s n)) ∧
    parse_rating (some "4/5") = some 4 ∧
    parse_rating (some "4") = some 4 ∧
    parse_rating (some "4 out of 5") = some 4 ∧
    parse_rating (some "0") = none ∧
    parse_rating (some "7") = none := by
  refine ⟨rfl, rfl, ?_, rfl, rfl, rfl, rfl, rfl⟩
  intro s n hs
  show (if s = "Not Available" then none
        else
          match firstDigitRun
            (if s.data.contains '/' then s.data.takeWhile (fun c => !(c = '/'))
             else s.data) with
          | some ds =>
            if 1 ≤ digitsToNat ds ∧ digitsToNat ds ≤ 5 then some (digitsToNat ds)
            else none
          | none => none) = some n ↔ RatingSpec s n
  rw [if_neg hs, beforeSlash_eq]
  constructor
  · intro h
    cases hrun : firstDigitRun (s.data.takeWhile (fun c => !(c = '/'))) with
    | none => rw [hrun] at h; exact absurd h (by simp)
    | some ds =>
      rw [hrun] at h
      simp only [] at h
      by_cases hb : 1 ≤ digitsToNat ds ∧ digitsToNat ds ≤ 5
      · rw [if_pos hb] at h
        injection h with h'
        obtain ⟨pre, post, he, hpre, hne, hds, hpost⟩ := firstDigitRun_sound hrun
        exact ⟨pre, ds, post, he, hpre, hne, hds, hpost, h'.symm,
          h' ▸ hb.1, h' ▸ hb.2⟩
      · rw [if_neg hb] at h
        exact absurd h (by simp)
  · rintro ⟨pre, ds, post, he, hpre, hne, hds, hpost, hn, h1, h5⟩
    have hrun := firstDigitRun_complete hpre hne hds hpost
    rw [← he] at hrun
    rw [hrun]
    simp only []
    rw [if_pos ⟨hn ▸ h1, hn ▸ h5⟩, hn]

theorem parse_rating_spec_witness :
    ("3 stars" ≠ "Not Available") ∧
      (parse_rating (some "3 stars") = some 3 ↔ RatingSpec "3 stars" 3) :=
  ⟨by decide, parse_rating_spec.2.2.1 "3 stars" 3 (by decide)⟩

theorem matchKeyCI_sound :
    ∀ {key cs r : List Char}, matchKeyCI key cs = some r →
      ∃ k, cs = k ++ r ∧ k.length = key.length ∧
        ∀ p ∈ k.zip key, p.1.toLower = p.2.toLower := by
  intro key
  induction key with
  | nil =>
    intro cs r h
    simp only [matchKeyCI, Option.some.injEq] at h
    exact ⟨[], by simp [h], rfl, by simp⟩
  | cons k0 ks ih =>
    intro cs r h
    cases cs with
    | nil => simp [matchKeyCI] at h
    | cons c cs' =>
      rw [matchKeyCI] at h
      by_cases hc : c.toLower = k0.toLower
      · rw [if_pos hc] at h
        obtain ⟨k, he, hlen, hzip⟩ := ih h
        refine ⟨c :: k, by simp [he], by simp [hlen], ?_⟩
        intro p hp
        rcases List.mem_cons.mp hp with hp | hp
        · rw [hp]; exact hc
        · exact hzip p hp
      · rw [if_neg hc] at h
        exact absurd h (by simp)

theorem matchKeyCI_complete :
    ∀ {key k : List Char} (r : List Char), k.length = key.length →
      (∀ p ∈ k.zip key, p.1.toLower = p.2.toLower) →
      matchKeyCI key (k ++ r) = some r := by
  intro key
  induction key with
  | nil =>
    intro k r hlen _
    have : k = [] := List.length_eq_zero.mp hlen
    subst this
    rfl
  | cons k0 ks ih =>
    intro k r hlen hzip
    cases k with
    | nil => simp at hlen
    | cons c k' =>
      have hc : c.toLower = k0.toLower := hzip (c, k0) (by simp)
      have hlen' : k'.length = ks.length := by simpa using hlen
      have hzip' : ∀ p ∈ k'.zip ks, p.1.toLower = p.2.toLower :=
        fun p hp => hzip p (List.mem_cons_of_mem _ (by simpa using hp))
      simp only [List.cons_append, matchKeyCI, if_pos hc]
      exact ih r hlen' hzip'

theorem FieldOccursAt_nil (key v : List Char) : ¬FieldOccursAt key [] v := by
  rintro ⟨k, ws, tail, h, -⟩
  exact absurd h (by simp)


theorem expectQuote_eq_some {cs r : List Char} :
    expectQuote cs = some r ↔ cs = '"' :: r := by
  cases cs with
  | nil => simp [expectQuote]
  | cons c rest =>
    by_cases hc : c = '"'
    · subst hc; simp [expectQuote]
    · simp [expectQuote, hc]

theorem expectColon_eq_some {cs r : List Char} :
    expectColon cs = some r ↔ cs = ':' :: r := by
  cases cs with
  | nil => simp [expectColon]
  | cons c rest =>
    by_cases hc : c = ':'
    · subst hc; simp [expectColon]
    · simp [expectColon, hc]

theorem readValue_eq_some {cs v : List Char} :
    readValue cs = some v ↔
      v ≠ [] ∧ (∀ c ∈ v, c ≠ '"') ∧ ∃ tail, cs = v ++ '"' :: tail := by
  constructor
  · intro h
    simp only [readValue] at h
    cases hdw : cs.dropWhile (fun c => !(c = '"')) with
    | nil => rw [hdw] at h; exact absurd h (by simp)
    | cons e tail =>
      rw [hdw] at h
      by_cases hemp : (cs.takeWhile (fun c => !(c = '"'))).isEmpty
      · rw [if_pos hemp] at h; exact absurd h (by simp)
      · rw [if_neg hemp] at h
        injection h with hv
        have he : e = '"' := by
          have := dropWhile_head_neg hdw
          simpa using this
        subst he
        refine ⟨?_, ?_, tail, ?_⟩
        · rw [← hv]; intro h0; rw [h0] at hemp; exact hemp rfl
        · intro c hc
          rw [← hv] at hc
          have := mem_takeWhile_pred hc
          simpa using this
        · have hsplit := List.takeWhile_append_dropWhile (fun c => !(c = '"')) cs
          rw [hdw, hv] at hsplit
          exact hsplit.symm
  · rintro ⟨hne, hnq, tail, rfl⟩
    simp only [readValue]
    have hv' : ∀ c ∈ v, (fun c => !(c = '"')) c = true :=
      fun c hc => by simpa using hnq c hc
    have hqq : (fun c => !(c = '"')) '"' = false := by simp
    rw [takeWhile_append_all hv', dropWhile_append_all hv',
      takeWhile_cons_neg _ hqq, dropWhile_cons_neg _ hqq, List.append_nil]
    rw [if_neg (by simpa [List.isEmpty_iff] using hne)]

/-- The anchored matcher recognises exactly the declarative occurrences. -/
theorem tryFieldAt_some_iff {key suf v : List Char} :
    tryFieldAt key suf = some v ↔ FieldOccursAt key suf v := by
  constructor
  · intro h
    simp only [tryFieldAt, Option.bind_eq_some] at h
    obtain ⟨r1, hq1, r2, hkey, r3, hq2, r4, hcol, r5, hq3, hval⟩ := h
    rw [expectQuote_eq_some] at hq1 hq2 hq3
    rw [expectColon_eq_some] at hcol
    obtain ⟨k, hr1, hlen, hzip⟩ := matchKeyCI_sound hkey
    rw [readValue_eq_some] at hval
    obtain ⟨hne, hnq, tail, hr5⟩ := hval
    have hr4 : r4 = r4.takeWhile isPyWs ++ '"' :: r5 := by
      have hsplit := List.takeWhile_append_dropWhile isPyWs r4
      rw [hq3] at hsplit
      exact hsplit.symm
    refine ⟨k, r4.takeWhile isPyWs, tail, ?_, hlen, hzip,
      fun c hc => mem_takeWhile_pred hc, hne, hnq⟩
    rw [hq1, hr1, hq2, hcol]
    conv_lhs => rw [hr4, hr5]
  · rintro ⟨k, ws, tail, hsuf, hlen, hzip, hws, hne, hnq⟩
    subst hsuf
    simp only [tryFieldAt, Option.bind_eq_some]
    refine ⟨k ++ '"' :: ':' :: (ws ++ '"' :: (v ++ '"' :: tail)),
      by simp [expectQuote],
      '"' :: ':' :: (ws ++ '"' :: (v ++ '"' :: tail)),
      matchKeyCI_complete _ hlen hzip,
      ':' :: (ws ++ '"' :: (v ++ '"' :: tail)),
      by simp [expectQuote],
      ws ++ '"' :: (v ++ '"' :: tail),
      by simp [expectColon],
      v ++ '"' :: tail, ?_, ?_⟩
    · rw [dropWhile_append_all hws,
        dropWhile_cons_neg _ (by decide : isPyWs '"' = false)]
      simp [expectQuote]
    · rw [readValue_eq_some]
      exact ⟨hne, hnq, tail, rfl⟩

/-- `re.search` semantics: a hit is the leftmost declarative occurrence. -/
theorem searchField_some_iff (key : List Char) :
    ∀ (cs v : List Char), searchField key cs = some v ↔
      ∃ n, FieldOccursAt key (cs.drop n) v ∧
        ∀ m, m < n → ∀ w, ¬FieldOccursAt key (cs.drop m) w := by
  intro cs
  induction cs with
  | nil =>
    intro v
    simp only [searchField]
    constructor
    · intro h; exact absurd h (by simp)
    · rintro ⟨n, hocc, -⟩
      rw [List.drop_nil] at hocc
      exact absurd hocc (FieldOccursAt_nil key v)
  | cons c rest ih =>
    intro v
    cases hat : tryFieldAt key (c :: rest) with
    | some w =>
      simp only [searchField, hat]
      constructor
      · intro h
        injection h with h'
        refine ⟨0, ?_, fun m hm => absurd hm (Nat.not_lt_zero m)⟩
        rw [List.drop_zero]
        exact tryFieldAt_some_iff.mp (h' ▸ hat)
      · rintro ⟨n, hocc, hmin⟩
        cases n with
        | zero =>
          rw [List.drop_zero] at hocc
          have hv := tryFieldAt_some_iff.mpr hocc
          rw [hat] at hv
          injection hv with h'
          rw [h']
        | succ n' =>
          have h0 : FieldOccursAt key ((c :: rest).drop 0) w := by
            rw [List.drop_zero]
            exact tryFieldAt_some_iff.mp hat
          exact absurd h0 (hmin 0 (Nat.succ_pos n') w)
    | none =>
      simp only [searchField, hat]
      constructor
      · intro hsf
        obtain ⟨n, hocc, hmin⟩ := (ih v).mp hsf
        refine ⟨n + 1, by rw [List.drop_succ_cons]; exact hocc, ?_⟩
        intro m hm w
        cases m with
        | zero =>
          rw [List.drop_zero]
          intro hocc0
          have hv := tryFieldAt_some_iff.mpr hocc0
          rw [hat] at hv
          exact absurd hv (by simp)
        | succ m' =>
          rw [List.drop_succ_cons]
          exact hmin m' (by omega) w
      · rintro ⟨n, hocc, hmin⟩
        cases n with
        | zero =>
          rw [List.drop_zero] at hocc
          have hv := tryFieldAt_some_iff.mpr hocc
          rw [hat] at hv
          exact absurd hv (by simp)
        | succ n' =>
          rw [List.drop_succ_cons] at hocc
          refine (ih v).mpr ⟨n', hocc, ?_⟩
          intro m hm w
          have hshift := hmin (m + 1) (by omega) w
          rwa [List.drop_succ_cons] at hshift

/-- `re.search` semantics: a miss means no occurrence anywhere. -/
theorem searchField_none_iff (key : List Char) :
    ∀ cs : List Char, searchField key cs = none ↔
      ∀ n w, ¬FieldOccursAt key (cs.drop n) w := by
  intro cs
  induction cs with
  | nil =>
    simp only [searchField]
    constructor
    · intro _ n w
      rw [List.drop_nil]
      exact FieldOccursAt_nil key w
    · intro _; trivial
  | cons c rest ih =>
    cases hat : tryFieldAt key (c :: rest) with
    | some w =>
      simp only [searchField, hat]
      constructor
      · intro h; exact absurd h (by simp)
      · intro hno
        have h0 := hno 0 w
        rw [List.drop_zero] at h0
        exact absurd (tryFieldAt_some_iff.mp hat) h0
    | none =>
      simp only [searchField, hat]
      constructor
      · intro h n w
        cases n with
        | zero =>
          rw [List.drop_zero]
          intro hocc
          have hv := tryFieldAt_some_iff.mpr hocc
          rw [hat] at hv
          exact absurd hv (by simp)
        | succ n' =>
          rw [List.drop_succ_cons]
          exact (ih.mp h) n' w
      · intro hno
        apply ih.mpr
        intro n w
        have hshift := hno (n + 1) w
        rwa [List.drop_succ_cons] at hshift

/-- C6, amended: for each of the twelve fields extracted with the pattern
`"<key>":\s*"([^"]+)"`, the fallback assigns the value of the leftmost
case-insensitive match (the value may span lines) and the sentinel when no
match exists; but the fallback does not cover the full financial metrics of
the schema — `burn_rate`, `runway`, `valuation`, `retention_rate` (among
others) are never extracted, and `signal_score` uses a digit pattern
instead. -/
theorem extract_field_first_match :
    (∀ (text key : String) (v : List Char),
      (∃ n, FieldOccursAt key.data (text.data.drop n) v ∧
        ∀ m, m < n → ∀ w, ¬FieldOccursAt key.data (text.data.drop m) w) →
      extract_field text key = String.mk v) ∧
    (∀ text key : String,
      (∀ n w, ¬FieldOccursAt key.data (text.data.drop n) w) →
      extract_field text key = "Not Available") ∧
    (∀ t : String, tier1Result t = none →
      (objLookup (parse_json_response t) "financials").map objKeys =
        some ["current_ask", "funding_raised"] ∧
      flatNoKey (parse_json_response t) "burn_rate" = true ∧
      flatNoKey (parse_json_response t) "runway" = true ∧
      flatNoKey (parse_json_response t) "valuation" = true ∧
      flatNoKey (parse_json_response t) "retention_rate" = true) := by
  refine ⟨?_, ?_, ?_⟩
  · intro text key v h
    have hs : searchField key.data text.data = some v :=
      (searchField_some_iff key.data text.data v).mpr h
    unfold extract_field
    rw [hs]
  · intro text key h
    have hs : searchField key.data text.data = none :=
      (searchField_none_iff key.data text.data).mpr h
    unfold extract_field
    rw [hs]
  · intro t h
    rw [parse_json_response_of_tier1_none t h]
    exact ⟨rfl, rfl, rfl, rfl, rfl⟩

theorem extract_field_first_match_witness :
    extract_field "\"stage\": \"Seed\"" "stage" = "Seed" :=
  extract_field_first_match.1 "\"stage\": \"Seed\"" "stage" "Seed".data
    ⟨0, ⟨"stage".data, [' '], [],
      by decide, by decide, by decide, by decide, by decide, by decide⟩,
      fun m hm => absurd hm (Nat.not_lt_zero m)⟩

theorem dropWhile_append_of_cons {p : Char → Bool} {l l2 : List Char}
    {d : Char} (h : l.dropWhile p = d :: l2) (b : List Char) :
    (l ++ b).dropWhile p = d :: (l2 ++ b) := by
  have hsplit : l = l.takeWhile p ++ d :: l2 := by
    have hh := List.takeWhile_append_dropWhile p l
    rw [h] at hh
    exact hh.symm
  have hall : ∀ c ∈ l.takeWhile p, p c = true := fun c hc => mem_takeWhile_pred hc
  have hd : p d = false := dropWhile_head_neg h
  conv_lhs => rw [hsplit]
  rw [List.append_assoc, dropWhile_append_all hall, List.cons_append,
    dropWhile_cons_neg _ hd]

theorem commaSafe_cons_ne {c : Char} (rest : List Char) (h : ¬(c = ',')) :
    commaSafe (c :: rest) = commaSafe rest := by
  simp only [commaSafe, if_neg h, Bool.true_and]

theorem commaSafe_append {a b : List Char} (ha : commaSafe a = true)
    (hb : commaSafe b = true) : commaSafe (a ++ b) = true := by
  induction a with
  | nil => simpa using hb
  | cons c resta ih =>
    simp only [commaSafe, Bool.and_eq_true] at ha
    have hrest := ih ha.2
    by_cases hc : c = ','
    · subst hc
      simp only [if_pos rfl] at ha
      cases hdw : resta.dropWhile isPyWs with
      | nil => rw [hdw] at ha; exact absurd ha.1 (by simp)
      | cons d l2 =>
        rw [hdw] at ha
        rw [List.cons_append]
        simp only [commaSafe, if_pos rfl, dropWhile_append_of_cons hdw b,
          Bool.and_eq_true]
        exact ⟨ha.1, hrest⟩
    · rw [List.cons_append, commaSafe_cons_ne _ hc]
      exact hrest

theorem commaSafe_single_closer_brace : commaSafe ['}'] = true := rfl

/-- `str.strip` is the identity on text with non-whitespace first and last
characters. -/
theorem pythonStrip_eq_self {c d : Char} (l : List Char)
    (hc : isPyWs c = false) (hd : isPyWs d = false) :
    pythonStrip (c :: (l ++ [d])) = c :: (l ++ [d]) := by
  unfold pythonStrip
  rw [dropWhile_cons_neg _ hc]
  have h1 : (c :: (l ++ [d])).reverse = d :: (l.reverse ++ [c]) := by simp
  rw [h1, dropWhile_cons_neg _ hd, ← h1, List.reverse_reverse]

theorem subFenceJsonF_no_tick :
    ∀ (fuel : Nat) (cs : List Char), (∀ x ∈ cs, ¬(x = btick)) →
      subFenceJsonF fuel cs = cs := by
  intro fuel
  induction fuel with
  | zero => intro cs _; rfl
  | succ fuel ih =>
    intro cs h
    cases cs with
    | nil => rfl
    | cons c rest =>
      have hc : ¬(c = btick) := h c (List.mem_cons_self c rest)
      show (if c = btick then _ else c :: subFenceJsonF fuel rest) = c :: rest
      rw [if_neg hc, ih rest (fun x hx => h x (List.mem_cons_of_mem c hx))]

theorem subFenceF_no_tick :
    ∀ (fuel : Nat) (cs : List Char), (∀ x ∈ cs, ¬(x = btick)) →
      subFenceF fuel cs = cs := by
  intro fuel
  induction fuel with
  | zero => intro cs _; rfl
  | succ fuel ih =>
    intro cs h
    cases cs with
    | nil => rfl
    | cons c rest =>
      have hc : ¬(c = btick) := h c (List.mem_cons_self c rest)
      show (if c = btick then _ else c :: subFenceF fuel rest) = c :: rest
      rw [if_neg hc, ih rest (fun x hx => h x (List.mem_cons_of_mem c hx))]

theorem subTicksF_no_tick :
    ∀ (fuel : Nat) (cs : List Char), (∀ x ∈ cs, ¬(x = btick)) →
      subTicksF fuel cs = cs := by
  intro fuel
  induction fuel with
  | zero => intro cs _; rfl
  | succ fuel ih =>
    intro cs h
    cases cs with
    | nil => rfl
    | cons c rest =>
      have hc : ¬(c = btick) := h c (List.mem_cons_self c rest)
      show (if c = btick then _ else c :: subTicksF fuel rest) = c :: rest
      rw [if_neg hc, ih rest (fun x hx => h x (List.mem_cons_of_mem c hx))]

theorem goodStr_charOk {s : String} (h : goodStr s = true) :
    ∀ x ∈ s.data, charOk x = true := by
  have h1 : s.data.all charOk = true := by
    simp only [goodStr, Bool.and_eq_true] at h
    exact h.1
  intro x hx
  exact List.all_eq_true.mp h1 x hx

theorem goodStr_commaSafe {s : String} (h : goodStr s = true) :
    commaSafe (s.data ++ ['"']) = true := by
  simp only [goodStr, Bool.and_eq_true] at h
  exact h.2

theorem charOk_no_tick {x : Char} (h : charOk x = true) : ¬(x = btick) := by
  simp only [charOk, Bool.and_eq_true, Bool.not_eq_true'] at h
  simpa using h.2

theorem charOk_no_quote {x : Char} (h : charOk x = true) : ¬(x = '"') := by
  simp only [charOk, Bool.and_eq_true, Bool.not_eq_true'] at h
  simpa using h.1.1.1

theorem charOk_no_backslash {x : Char} (h : charOk x = true) : ¬(x = '\\') := by
  simp only [charOk, Bool.and_eq_true, Bool.not_eq_true'] at h
  simpa using h.1.1.2

theorem charOk_printable {x : Char} (h : charOk x = true) : 32 ≤ x.toNat := by
  simp only [charOk, Bool.and_eq_true, decide_eq_true_eq] at h
  exact h.1.2

/-- On comma-safe text the trailing-comma repair is the identity. -/
theorem removeTCF_eq_self :
    ∀ (fuel : Nat) {cs : List Char}, commaSafe cs = true →
      removeTCF fuel cs = cs := by
  intro fuel
  induction fuel with
  | zero => intro cs _; rfl
  | succ fuel ih =>
    intro cs h
    cases cs with
    | nil => rfl
    | cons c rest =>
      simp only [commaSafe, Bool.and_eq_true] at h
      by_cases hc : c = ','
      · subst hc
        rw [if_pos rfl] at h
        obtain ⟨h1, h2⟩ := h
        cases hdw : rest.dropWhile isPyWs with
        | nil => rw [hdw] at h1; exact absurd h1 (by simp)
        | cons d l2 =>
          rw [hdw] at h1
          have hd : (d = '}' || d = ']') = false := by simpa using h1
          simp [removeTCF, hdw, hd, ih h2]
      · obtain ⟨-, h2⟩ := h
        simp [removeTCF, if_neg hc, ih h2]

/-- Scanning passes over a comma-safe prefix without touching it. -/
theorem removeTCF_append :
    ∀ (fuel : Nat) {cs : List Char} (b : List Char), commaSafe cs = true →
      removeTCF fuel (cs ++ b) = cs ++ removeTCF (fuel - cs.length) b := by
  intro fuel
  induction fuel with
  | zero =>
    intro cs b _
    simp [removeTCF]
  | succ fuel ih =>
    intro cs b h
    cases cs with
    | nil => simp
    | cons c rest =>
      simp only [commaSafe, Bool.and_eq_true] at h
      rw [List.cons_append]
      by_cases hc : c = ','
      · subst hc
        rw [if_pos rfl] at h
        obtain ⟨h1, h2⟩ := h
        cases hdw : rest.dropWhile isPyWs with
        | nil => rw [hdw] at h1; exact absurd h1 (by simp)
        | cons d l2 =>
          rw [hdw] at h1
          have hd : (d = '}' || d = ']') = false := by simpa using h1
          simp only [removeTCF, if_pos rfl, dropWhile_append_of_cons hdw b,
            hd, Bool.false_eq_true, if_false]
          rw [ih b h2]
          simp [Nat.succ_sub_succ]
      · obtain ⟨-, h2⟩ := h
        simp only [removeTCF, if_neg hc]
        rw [ih b h2]
        simp [Nat.succ_sub_succ]

theorem removeTrailingCommas_eq_self {cs : List Char}
    (h : commaSafe cs = true) : removeTrailingCommas cs = cs :=
  removeTCF_eq_self cs.length h

theorem removeTrailingCommas_append {cs : List Char} (b : List Char)
    (h : commaSafe cs = true) :
    removeTrailingCommas (cs ++ b) = cs ++ removeTrailingCommas b := by
  unfold removeTrailingCommas
  rw [removeTCF_append (cs ++ b).length b h]
  congr 1
  congr 1
  simp

theorem pyFind_head (c : Char) (l : List Char) : pyFind c (c :: l) = some 0 := by
  simp [pyFind, List.findIdx?_cons]

theorem pyRfind_last (c : Char) (l : List Char) :
    pyRfind c (l ++ [c]) = some l.length := by
  unfold pyRfind
  rw [List.reverse_append]
  simp [List.findIdx?_cons]

/-- The first character of a serialized piece: not whitespace, not `}`/`]`
(so a comma before it never triggers the trailing-comma repair). -/
def headNZ (cs : List Char) : Prop :=
  ∃ c rest, cs = c :: rest ∧ isPyWs c = false ∧ ¬(c = '}') ∧ ¬(c = ']')

theorem serializeItems_cons_decomp (item : α → List Char) (x : α)
    (l : List α) : ∃ t, serializeItems item (x :: l) = item x ++ t := by
  cases l with
  | nil => exact ⟨[], by simp [serializeItems]⟩
  | cons y rest => exact ⟨',' :: ' ' :: serializeItems item (y :: rest), rfl⟩

theorem commaSafe_serializeItems (item : α → List Char) :
    ∀ l : List α, (∀ x ∈ l, commaSafe (item x) = true) →
      (∀ x ∈ l, headNZ (item x)) →
      commaSafe (serializeItems item l) = true := by
  intro l
  induction l with
  | nil => intro _ _; rfl
  | cons x l ih =>
    intro hcs hhd
    cases l with
    | nil => simpa [serializeItems] using hcs x (by simp)
    | cons y rest =>
      show commaSafe (item x ++ ',' :: ' ' :: serializeItems item (y :: rest)) = true
      apply commaSafe_append (hcs x (by simp))
      obtain ⟨t, hS⟩ := serializeItems_cons_decomp item y rest
      obtain ⟨c, r, hcy, hnws, hnb, hnk⟩ := hhd y (by simp)
      have hS' : serializeItems item (y :: rest) = c :: (r ++ t) := by
        rw [hS, hcy]; rfl
      have hdw : (' ' :: serializeItems item (y :: rest)).dropWhile isPyWs
          = c :: (r ++ t) := by
        rw [List.dropWhile_cons]
        simp only [show isPyWs ' ' = true from rfl, if_true]
        rw [hS', dropWhile_cons_neg _ hnws]
      have hrest : commaSafe (serializeItems item (y :: rest)) = true :=
        ih (fun z hz => hcs z (List.mem_cons_of_mem x hz))
          (fun z hz => hhd z (List.mem_cons_of_mem x hz))
      simp only [commaSafe, if_pos rfl, hdw, Bool.and_eq_true]
      refine ⟨by simp [hnb, hnk], ?_, ?_⟩
      · simp
      · exact hrest

theorem noTick_serializeItems (item : α → List Char) :
    ∀ l : List α, (∀ x ∈ l, ∀ y ∈ item x, ¬(y = btick)) →
      ∀ y ∈ serializeItems item l, ¬(y = btick) := by
  intro l
  induction l with
  | nil => intro _ y hy; simp [serializeItems] at hy
  | cons x l ih =>
    intro h y hy
    cases l with
    | nil =>
      simp only [serializeItems] at hy
      exact h x (by simp) y hy
    | cons z rest =>
      simp only [serializeItems, List.mem_append, List.mem_cons] at hy
      rcases hy with hy | hy | hy | hy
      · exact h x (by simp) y hy
      · subst hy; decide
      · subst hy; decide
      · exact ih (fun a ha => h a (List.mem_cons_of_mem x ha)) y hy

theorem headNZ_serializeStr (s : String) : headNZ (serializeStr s) :=
  ⟨'"', s.data ++ ['"'], rfl, by decide, by decide, by decide⟩

theorem commaSafe_serializeStr {s : String} (h : goodStr s = true) :
    commaSafe (serializeStr s) = true := by
  show commaSafe ('"' :: (s.data ++ ['"'])) = true
  rw [commaSafe_cons_ne _ (by decide)]
  exact goodStr_commaSafe h

theorem noTick_serializeStr {s : String} (h : goodStr s = true) :
    ∀ y ∈ serializeStr s, ¬(y = btick) := by
  intro y hy
  simp only [serializeStr, List.mem_cons, List.mem_append] at hy
  rcases hy with (hy | hy) | (hy | hy)
  · subst hy; decide
  · exact charOk_no_tick (goodStr_charOk h y hy)
  · subst hy; decide
  · simp at hy

theorem headNZ_serializePair (kv : String × String) :
    headNZ (serializePair kv) := by
  refine ⟨'"', (kv.1.data ++ ['"']) ++ (':' :: ' ' :: serializeStr kv.2),
    ?_, by decide, by decide, by decide⟩
  show serializeStr kv.1 ++ (':' :: ' ' :: serializeStr kv.2) = _
  rfl

theorem commaSafe_serializePair {kv : String × String}
    (h1 : goodStr kv.1 = true) (h2 : goodStr kv.2 = true) :
    commaSafe (serializePair kv) = true := by
  apply commaSafe_append (commaSafe_serializeStr h1)
  rw [commaSafe_cons_ne _ (by decide), commaSafe_cons_ne _ (by decide)]
  exact commaSafe_serializeStr h2

theorem noTick_serializePair {kv : String × String}
    (h1 : goodStr kv.1 = true) (h2 : goodStr kv.2 = true) :
    ∀ y ∈ serializePair kv, ¬(y = btick) := by
  intro y hy
  simp only [serializePair, List.mem_append, List.mem_cons] at hy
  rcases hy with hy | hy | hy | hy
  · exact noTick_serializeStr h1 y hy
  · subst hy; decide
  · subst hy; decide
  · exact noTick_serializeStr h2 y hy

theorem goodFlatObj_elim {o : List (String × String)}
    (h : goodFlatObj o = true) :
    ∀ kv ∈ o, goodStr kv.1 = true ∧ goodStr kv.2 = true := by
  simp only [goodFlatObj, Bool.and_eq_true, List.all_eq_true] at h
  intro kv hkv
  simpa using h.1 kv hkv

theorem goodSect_elim {s : List (String × FieldVal)} (h : goodSect s = true) :
    ∀ kv ∈ s, goodStr kv.1 = true ∧ goodFieldVal kv.2 = true := by
  simp only [goodSect, Bool.and_eq_true, List.all_eq_true] at h
  intro kv hkv
  simpa using h.1 kv hkv

theorem goodRec_elim {r : List (String × SectVal)}
    (h : goodRec r = true) :
    ∀ kv ∈ r, goodStr kv.1 = true ∧ goodSectVal kv.2 = true := by
  simp only [goodRec, Bool.and_eq_true, List.all_eq_true] at h
  intro kv hkv
  simpa using h.1 kv hkv

theorem headNZ_serializeFlatObj (o : List (String × String)) :
    headNZ (serializeFlatObj o) :=
  ⟨'{', serializeItems serializePair o ++ ['}'], by
    show ('{' :: serializeItems serializePair o) ++ ['}'] = _
    simp, by decide, by decide, by decide⟩

theorem commaSafe_serializeFlatObj {o : List (String × String)}
    (h : goodFlatObj o = true) : commaSafe (serializeFlatObj o) = true := by
  show commaSafe (('{' :: serializeItems serializePair o) ++ ['}']) = true
  apply commaSafe_append _ commaSafe_single_closer_brace
  rw [commaSafe_cons_ne _ (by decide)]
  apply commaSafe_serializeItems
  · intro kv hkv
    exact commaSafe_serializePair (goodFlatObj_elim h kv hkv).1
      (goodFlatObj_elim h kv hkv).2
  · intro kv _
    exact headNZ_serializePair kv

theorem noTick_serializeFlatObj {o : List (String × String)}
    (h : goodFlatObj o = true) :
    ∀ y ∈ serializeFlatObj o, ¬(y = btick) := by
  intro y hy
  simp only [serializeFlatObj, List.mem_cons, List.mem_append] at hy
  rcases hy with (hy | hy) | (hy | hy)
  · subst hy; decide
  · exact noTick_serializeItems serializePair o
      (fun kv hkv => noTick_serializePair (goodFlatObj_elim h kv hkv).1
        (goodFlatObj_elim h kv hkv).2) y hy
  · subst hy; decide
  · simp at hy

theorem headNZ_serializeFieldVal (fv : FieldVal) :
    headNZ (serializeFieldVal fv) := by
  cases fv with
  | s v => exact headNZ_serializeStr v
  | list vs =>
    exact ⟨'[', serializeItems serializeStr vs ++ [']'], by
      show ('[' :: serializeItems serializeStr vs) ++ [']'] = _
      simp, by decide, by decide, by decide⟩
  | olist os =>
    exact ⟨'[', serializeItems serializeFlatObj os ++ [']'], by
      show ('[' :: serializeItems serializeFlatObj os) ++ [']'] = _
      simp, by decide, by decide, by decide⟩

theorem commaSafe_singleton_bracket : commaSafe [']'] = true := rfl

theorem commaSafe_serializeFieldVal {fv : FieldVal}
    (h : goodFieldVal fv = true) : commaSafe (serializeFieldVal fv) = true := by
  cases fv with
  | s v => exact commaSafe_serializeStr h
  | list vs =>
    show commaSafe (('[' :: serializeItems serializeStr vs) ++ [']']) = true
    apply commaSafe_append _ commaSafe_singleton_bracket
    rw [commaSafe_cons_ne _ (by decide)]
    apply commaSafe_serializeItems
    · intro v hv
      have hv' : goodStr v = true := by
        simp only [goodFieldVal, List.all_eq_true] at h
        exact h v hv
      exact commaSafe_serializeStr hv'
    · intro v _
      exact headNZ_serializeStr v
  | olist os =>
    show commaSafe (('[' :: serializeItems serializeFlatObj os) ++ [']']) = true
    apply commaSafe_append _ commaSafe_singleton_bracket
    rw [commaSafe_cons_ne _ (by decide)]
    apply commaSafe_serializeItems
    · intro o ho
      have ho' : goodFlatObj o = true := by
        simp only [goodFieldVal, List.all_eq_true] at h
        exact h o ho
      exact commaSafe_serializeFlatObj ho'
    · intro o _
      exact headNZ_serializeFlatObj o

theorem noTick_serializeFieldVal {fv : FieldVal}
    (h : goodFieldVal fv = true) :
    ∀ y ∈ serializeFieldVal fv, ¬(y = btick) := by
  cases fv with
  | s v => exact noTick_serializeStr h
  | list vs =>
    intro y hy
    simp only [serializeFieldVal, List.mem_cons, List.mem_append] at hy
    rcases hy with (hy | hy) | (hy | hy)
    · subst hy; decide
    · refine noTick_serializeItems serializeStr vs ?_ y hy
      intro v hv
      have hv' : goodStr v = true := by
        simp only [goodFieldVal, List.all_eq_true] at h
        exact h v hv
      exact noTick_serializeStr hv'
    · subst hy; decide
    · simp at hy
  | olist os =>
    intro y hy
    simp only [serializeFieldVal, List.mem_cons, List.mem_append] at hy
    rcases hy with (hy | hy) | (hy | hy)
    · subst hy; decide
    · refine noTick_serializeItems serializeFlatObj os ?_ y hy
      intro o ho
      have ho' : goodFlatObj o = true := by
        simp only [goodFieldVal, List.all_eq_true] at h
        exact h o ho
      exact noTick_serializeFlatObj ho'
    · subst hy; decide
    · simp at hy

theorem headNZ_serializeField (kv : String × FieldVal) :
    headNZ (serializeField kv) := by
  refine ⟨'"', (kv.1.data ++ ['"']) ++ (':' :: ' ' :: serializeFieldVal kv.2),
    ?_, by decide, by decide, by decide⟩
  show serializeStr kv.1 ++ (':' :: ' ' :: serializeFieldVal kv.2) = _
  rfl

theorem commaSafe_serializeField {kv : String × FieldVal}
    (h1 : goodStr kv.1 = true) (h2 : goodFieldVal kv.2 = true) :
    commaSafe (serializeField kv) = true := by
  apply commaSafe_append (commaSafe_serializeStr h1)
  rw [commaSafe_cons_ne _ (by decide), commaSafe_cons_ne _ (by decide)]
  exact commaSafe_serializeFieldVal h2

theorem noTick_serializeField {kv : String × FieldVal}
    (h1 : goodStr kv.1 = true) (h2 : goodFieldVal kv.2 = true) :
    ∀ y ∈ serializeField kv, ¬(y = btick) := by
  intro y hy
  simp only [serializeField, List.mem_append, List.mem_cons] at hy
  rcases hy with hy | hy | hy | hy
  · exact noTick_serializeStr h1 y hy
  · subst hy; decide
  · subst hy; decide
  · exact noTick_serializeFieldVal h2 y hy

theorem headNZ_serializeSect (s : List (String × FieldVal)) :
    headNZ (serializeSect s) :=
  ⟨'{', serializeItems serializeField s ++ ['}'], by
    show ('{' :: serializeItems serializeField s) ++ ['}'] = _
    simp, by decide, by decide, by decide⟩

theorem commaSafe_serializeSect {s : List (String × FieldVal)}
    (h : goodSect s = true) : commaSafe (serializeSect s) = true := by
  show commaSafe (('{' :: serializeItems serializeField s) ++ ['}']) = true
  apply commaSafe_append _ commaSafe_single_closer_brace
  rw [commaSafe_cons_ne _ (by decide)]
  apply commaSafe_serializeItems
  · intro kv hkv
    exact commaSafe_serializeField (goodSect_elim h kv hkv).1
      (goodSect_elim h kv hkv).2
  · intro kv _
    exact headNZ_serializeField kv

theorem noTick_serializeSect {s : List (String × FieldVal)}
    (h : goodSect s = true) :
    ∀ y ∈ serializeSect s, ¬(y = btick) := by
  intro y hy
  simp only [serializeSect, List.mem_cons, List.mem_append] at hy
  rcases hy with (hy | hy) | (hy | hy)
  · subst hy; decide
  · exact noTick_serializeItems serializeField s
      (fun kv hkv => noTick_serializeField (goodSect_elim h kv hkv).1
        (goodSect_elim h kv hkv).2) y hy
  · subst hy; decide
  · simp at hy

theorem commaSafe_serializeSectVal {sv : SectVal}
    (h : goodSectVal sv = true) : commaSafe (serializeSectVal sv) = true := by
  cases sv with
  | obj fields => exact commaSafe_serializeSect h
  | olist os =>
    show commaSafe (('[' :: serializeItems serializeFlatObj os) ++ [']']) = true
    apply commaSafe_append _ commaSafe_singleton_bracket
    rw [commaSafe_cons_ne _ (by decide)]
    apply commaSafe_serializeItems
    · intro o ho
      have ho' : goodFlatObj o = true := by
        simp only [goodSectVal, List.all_eq_true] at h
        exact h o ho
      exact commaSafe_serializeFlatObj ho'
    · intro o _
      exact headNZ_serializeFlatObj o

theorem noTick_serializeSectVal {sv : SectVal}
    (h : goodSectVal sv = true) :
    ∀ y ∈ serializeSectVal sv, ¬(y = btick) := by
  cases sv with
  | obj fields => exact noTick_serializeSect h
  | olist os =>
    intro y hy
    simp only [serializeSectVal, List.mem_cons, List.mem_append] at hy
    rcases hy with (hy | hy) | (hy | hy)
    · subst hy; decide
    · refine noTick_serializeItems serializeFlatObj os ?_ y hy
      intro o ho
      have ho' : goodFlatObj o = true := by
        simp only [goodSectVal, List.all_eq_true] at h
        exact h o ho
      exact noTick_serializeFlatObj ho'
    · subst hy; decide
    · simp at hy

theorem headNZ_serializeTopField (kv : String × SectVal) :
    headNZ (serializeTopField kv) := by
  refine ⟨'"', (kv.1.data ++ ['"']) ++ (':' :: ' ' :: serializeSectVal kv.2),
    ?_, by decide, by decide, by decide⟩
  show serializeStr kv.1 ++ (':' :: ' ' :: serializeSectVal kv.2) = _
  rfl

theorem commaSafe_serializeTopField {kv : String × SectVal}
    (h1 : goodStr kv.1 = true) (h2 : goodSectVal kv.2 = true) :
    commaSafe (serializeTopField kv) = true := by
  apply commaSafe_append (commaSafe_serializeStr h1)
  rw [commaSafe_cons_ne _ (by decide), commaSafe_cons_ne _ (by decide)]
  exact commaSafe_serializeSectVal h2

theorem noTick_serializeTopField {kv : String × SectVal}
    (h1 : goodStr kv.1 = true) (h2 : goodSectVal kv.2 = true) :
    ∀ y ∈ serializeTopField kv, ¬(y = btick) := by
  intro y hy
  simp only [serializeTopField, List.mem_append, List.mem_cons] at hy
  rcases hy with hy | hy | hy | hy
  · exact noTick_serializeStr h1 y hy
  · subst hy; decide
  · subst hy; decide
  · exact noTick_serializeSectVal h2 y hy

/-- The record body (everything up to, but not including, the final `}`). -/
theorem commaSafe_serializeRecBody
    {r : List (String × SectVal)} (h : goodRec r = true) :
    commaSafe ('{' :: serializeItems serializeTopField r) = true := by
  rw [commaSafe_cons_ne _ (by decide)]
  apply commaSafe_serializeItems
  · intro kv hkv
    exact commaSafe_serializeTopField (goodRec_elim h kv hkv).1
      (goodRec_elim h kv hkv).2
  · intro kv _
    exact headNZ_serializeTopField kv

theorem commaSafe_serializeRec
    {r : List (String × SectVal)} (h : goodRec r = true) :
    commaSafe (serializeRec r) = true := by
  show commaSafe (('{' :: serializeItems serializeTopField r) ++ ['}']) = true
  exact commaSafe_append (commaSafe_serializeRecBody h)
    commaSafe_single_closer_brace

theorem noTick_serializeRec
    {r : List (String × SectVal)} (h : goodRec r = true) :
    ∀ y ∈ serializeRec r, ¬(y = btick) := by
  intro y hy
  simp only [serializeRec, List.mem_cons, List.mem_append] at hy
  rcases hy with (hy | hy) | (hy | hy)
  · subst hy; decide
  · exact noTick_serializeItems serializeTopField r
      (fun kv hkv => noTick_serializeTopField (goodRec_elim h kv hkv).1
        (goodRec_elim h kv hkv).2) y hy
  · subst hy; decide
  · simp at hy

theorem noTick_serializeRecTC
    {r : List (String × SectVal)} (h : goodRec r = true) :
    ∀ y ∈ serializeRecTC r, ¬(y = btick) := by
  intro y hy
  simp only [serializeRecTC, List.mem_cons, List.mem_append] at hy
  rcases hy with (hy | hy) | (hy | hy | hy)
  · subst hy; decide
  · exact noTick_serializeItems serializeTopField r
      (fun kv hkv => noTick_serializeTopField (goodRec_elim h kv hkv).1
        (goodRec_elim h kv hkv).2) y hy
  · subst hy; decide
  · subst hy; decide
  · simp at hy

theorem candidateOf_serializeRec
    {r : List (String × SectVal)} (hg : goodRec r = true) :
    candidateOf (String.mk (serializeRec r)) = some (serializeRec r) := by
  have hnt := noTick_serializeRec hg
  have hstrip : pythonStrip (serializeRec r) = serializeRec r := by
    show pythonStrip (('{' :: serializeItems serializeTopField r) ++ ['}']) = _
    rw [List.cons_append]
    have := pythonStrip_eq_self (serializeItems serializeTopField r)
      (by decide : isPyWs '{' = false) (by decide : isPyWs '}' = false)
    rw [this]
    rfl
  have h1 : subFenceJson (serializeRec r) = serializeRec r :=
    subFenceJsonF_no_tick _ _ hnt
  have h2 : subFence (serializeRec r) = serializeRec r :=
    subFenceF_no_tick _ _ hnt
  have h3 : subTicks (serializeRec r) = serializeRec r :=
    subTicksF_no_tick _ _ hnt
  have hfind : pyFind '{' (serializeRec r) = some 0 := by
    show pyFind '{' (('{' :: serializeItems serializeTopField r) ++ ['}']) = _
    rw [List.cons_append]
    exact pyFind_head _ _
  have hrfind : pyRfind '}' (serializeRec r)
      = some ((serializeItems serializeTopField r).length + 1) := by
    show pyRfind '}' (('{' :: serializeItems serializeTopField r) ++ ['}']) = _
    rw [pyRfind_last]
    simp
  have hlen : (serializeRec r).length
      = (serializeItems serializeTopField r).length + 2 := by
    show (('{' :: serializeItems serializeTopField r) ++ ['}']).length = _
    simp
  simp only [candidateOf]
  rw [hstrip, h1, h2, h3, hfind, hrfind]
  simp only [Option.some.injEq]
  rw [if_pos (by omega)]
  rw [List.drop_zero]
  rw [show (serializeItems serializeTopField r).length + 1 + 1 - 0
      = (serializeRec r).length from by omega]
  rw [List.take_length]
  rw [removeTrailingCommas_eq_self (commaSafe_serializeRec hg)]

theorem candidateOf_serializeRecTC
    {r : List (String × SectVal)} (hg : goodRec r = true) :
    candidateOf (String.mk (serializeRecTC r)) = some (serializeRec r) := by
  have hnt := noTick_serializeRecTC hg
  have hsplit : serializeRecTC r
      = ('{' :: serializeItems serializeTopField r) ++ [','] ++ ['}'] := by
    show ('{' :: serializeItems serializeTopField r) ++ [',', '}'] = _
    simp
  have hstrip : pythonStrip (serializeRecTC r) = serializeRecTC r := by
    show pythonStrip (('{' :: serializeItems serializeTopField r)
      ++ [',', '}']) = _
    rw [List.cons_append]
    have heq : serializeItems serializeTopField r ++ [',', '}']
        = (serializeItems serializeTopField r ++ [',']) ++ ['}'] := by simp
    rw [heq]
    have := pythonStrip_eq_self (serializeItems serializeTopField r ++ [','])
      (by decide : isPyWs '{' = false) (by decide : isPyWs '}' = false)
    rw [this, List.append_assoc]
    rfl
  have h1 : subFenceJson (serializeRecTC r) = serializeRecTC r :=
    subFenceJsonF_no_tick _ _ hnt
  have h2 : subFence (serializeRecTC r) = serializeRecTC r :=
    subFenceF_no_tick _ _ hnt
  have h3 : subTicks (serializeRecTC r) = serializeRecTC r :=
    subTicksF_no_tick _ _ hnt
  have hfind : pyFind '{' (serializeRecTC r) = some 0 := by
    show pyFind '{' (('{' :: serializeItems serializeTopField r)
      ++ [',', '}']) = _
    rw [List.cons_append]
    exact pyFind_head _ _
  have hrfind : pyRfind '}' (serializeRecTC r)
      = some ((serializeItems serializeTopField r).length + 2) := by
    rw [hsplit, pyRfind_last]
    simp
  have hlen : (serializeRecTC r).length
      = (serializeItems serializeTopField r).length + 3 := by
    show (('{' :: serializeItems serializeTopField r) ++ [',', '}']).length = _
    simp
  simp only [candidateOf]
  rw [hstrip, h1, h2, h3, hfind, hrfind]
  simp only [Option.some.injEq]
  rw [if_pos (by omega)]
  rw [List.drop_zero]
  rw [show (serializeItems serializeTopField r).length + 2 + 1 - 0
      = (serializeRecTC r).length from by omega]
  rw [List.take_length]
  have hrtc : removeTrailingCommas (serializeRecTC r) = serializeRec r := by
    show removeTrailingCommas (('{' :: serializeItems serializeTopField r)
      ++ [',', '}']) = serializeRec r
    rw [removeTrailingCommas_append _ (commaSafe_serializeRecBody hg)]
    show ('{' :: serializeItems serializeTopField r)
        ++ removeTrailingCommas [',', '}']
      = ('{' :: serializeItems serializeTopField r) ++ ['}']
    rfl
  rw [hrtc]

/-- A serialized object member: quoted key, colon, space, value. -/
def serMember (serV : β → List Char) (kv : String × β) : List Char :=
  serializeStr kv.1 ++ ':' :: ' ' :: serV kv.2

theorem serializePair_eq_serMember :
    serializePair = serMember serializeStr := rfl

theorem serializeField_eq_serMember :
    serializeField = serMember serializeFieldVal := rfl

theorem serializeTopField_eq_serMember :
    serializeTopField = serMember serializeSectVal := rfl

/-- Fuel needed by `parseElems` for a serialized element list. -/
def elemsCostBy (costV : β → Nat) : List β → Nat
  | [] => 0
  | x :: r => costV x + 1 + elemsCostBy costV r

/-- Fuel needed by `parseMembers` for a serialized member list. -/
def membersCostBy (costV : β → Nat) : List (String × β) → Nat
  | [] => 0
  | kv :: r => costV kv.2 + 1 + membersCostBy costV r

def flatObjCost (o : List (String × String)) : Nat :=
  membersCostBy (fun _ => 1) o + 1

def fieldValCost : FieldVal → Nat
  | .s _ => 1
  | .list vs => elemsCostBy (fun _ => 1) vs + 1
  | .olist os => elemsCostBy flatObjCost os + 1

def sectCost (s : List (String × FieldVal)) : Nat :=
  membersCostBy fieldValCost s + 1

def sectValCost : SectVal → Nat
  | .obj fields => sectCost fields
  | .olist os => elemsCostBy flatObjCost os + 1

def recCost (r : List (String × SectVal)) : Nat :=
  membersCostBy sectValCost r + 1

theorem parseStringCharsF_plain :
    ∀ {s : List Char}, (∀ c ∈ s, charOk c = true) →
      ∀ (rest : List Char) (fuel : Nat), s.length + 1 ≤ fuel →
        parseStringCharsF fuel (s ++ '"' :: rest) = some (s, rest) := by
  intro s
  induction s with
  | nil =>
    intro _ rest fuel hf
    obtain ⟨f, rfl⟩ : ∃ f, fuel = f + 1 := ⟨fuel - 1, by omega⟩
    rfl
  | cons c cs ih =>
    intro h rest fuel hf
    obtain ⟨f, rfl⟩ : ∃ f, fuel = f + 1 := ⟨fuel - 1, by omega⟩
    have hc := h c (List.mem_cons_self c cs)
    have hnq : ¬(c = '"') := charOk_no_quote hc
    have hnb : ¬(c = '\\') := charOk_no_backslash hc
    have hpr : ¬(c.toNat < 32) := by
      have := charOk_printable hc
      omega
    rw [List.cons_append]
    simp only [parseStringCharsF]
    rw [if_neg hnq, if_neg hnb, if_neg hpr,
      ih (fun x hx => h x (List.mem_cons_of_mem c hx)) rest f (by
        simp only [List.length_cons] at hf
        omega)]
    rfl

theorem parseStringChars_plain {s : List Char}
    (h : ∀ c ∈ s, charOk c = true) (rest : List Char) :
    parseStringChars (s ++ '"' :: rest) = some (s, rest) := by
  unfold parseStringChars
  apply parseStringCharsF_plain h rest
  simp only [List.length_append, List.length_cons]
  omega

theorem parseValue_quote (f : Nat) (X : List Char) :
    parseValue (f + 1) ('"' :: X)
      = (parseStringChars X).map (fun p => (.str ⟨p.1⟩, p.2)) := rfl

theorem parseValue_brace_close (f : Nat) (r : List Char) :
    parseValue (f + 1) ('{' :: '}' :: r) = some (.obj [], r) := rfl

theorem parseValue_brace_quote (f : Nat) (Y : List Char) :
    parseValue (f + 1) ('{' :: '"' :: Y) = parseMembers f ('"' :: Y) [] := rfl

theorem parseValue_bracket_close (f : Nat) (r : List Char) :
    parseValue (f + 1) ('[' :: ']' :: r) = some (.arr [], r) := rfl

theorem parseValue_bracket_quote (f : Nat) (Y : List Char) :
    parseValue (f + 1) ('[' :: '"' :: Y) = parseElems f ('"' :: Y) [] := rfl

theorem parseValue_bracket_brace (f : Nat) (Y : List Char) :
    parseValue (f + 1) ('[' :: '{' :: Y) = parseElems f ('{' :: Y) [] := rfl

/-- Serialized strings parse back to themselves. -/
theorem parseValue_serializeStr {s : String} (h : goodStr s = true)
    (rest : List Char) :
    ∀ fuel, 1 ≤ fuel →
      parseValue fuel (serializeStr s ++ rest) = some (.str s, rest) := by
  intro fuel hfuel
  obtain ⟨f, rfl⟩ : ∃ f, fuel = f + 1 :=
    ⟨fuel - 1, by omega⟩
  have hshape : serializeStr s ++ rest = '"' :: (s.data ++ '"' :: rest) := by
    simp [serializeStr]
  rw [hshape, parseValue_quote, parseStringChars_plain (goodStr_charOk h) rest]
  rfl

theorem parseValue_cons_ws {c : Char} (hc : isJsonWs c = true)
    (X : List Char) (f : Nat) :
    parseValue (f + 1) (c :: X) = parseValue (f + 1) X := by
  have hdw : (c :: X).dropWhile isJsonWs = X.dropWhile isJsonWs := by
    simp [List.dropWhile_cons, hc]
  rw [parseValue.eq_2, parseValue.eq_2, hdw]

theorem parseMembers_cons_ws {c : Char} (hc : isJsonWs c = true)
    (X : List Char) (acc : List (String × JsonValue)) (f : Nat) :
    parseMembers (f + 1) (c :: X) acc = parseMembers (f + 1) X acc := by
  have hdw : (c :: X).dropWhile isJsonWs = X.dropWhile isJsonWs := by
    simp [List.dropWhile_cons, hc]
  rw [parseMembers.eq_2, parseMembers.eq_2, hdw]

theorem parseElems_cons_ws {c : Char} (hc : isJsonWs c = true)
    (X : List Char) (acc : List JsonValue) (f : Nat) :
    parseElems (f + 1) (c :: X) acc = parseElems (f + 1) X acc := by
  cases f with
  | zero => rw [parseElems.eq_2, parseElems.eq_2, parseValue.eq_1, parseValue.eq_1]
  | succ f' => rw [parseElems.eq_2, parseElems.eq_2, parseValue_cons_ws hc X f']

theorem serMember_shape (serV : β → List Char) (kv : String × β)
    (X : List Char) :
    serMember serV kv ++ X
      = '"' :: (kv.1.data ++ '"' :: ':' :: ' ' :: (serV kv.2 ++ X)) := by
  simp [serMember, serializeStr]

theorem parseMembers_quote_step (f : Nat) (Z : List Char)
    (acc : List (String × JsonValue)) :
    parseMembers (f + 1) ('"' :: Z) acc
      = match parseStringChars Z with
        | none => none
        | some (kcs, rest1) =>
          match rest1.dropWhile isJsonWs with
          | ':' :: rest2 =>
            (match parseValue f rest2 with
             | none => none
             | some (v, rest3) =>
               match rest3.dropWhile isJsonWs with
               | ',' :: rest4 => parseMembers f rest4 (objInsert ⟨kcs⟩ v acc)
               | '}' :: rest4 => some (.obj (objInsert ⟨kcs⟩ v acc), rest4)
               | _ => none)
          | _ => none := rfl

theorem objInsert_fresh {k : String} {v : JsonValue}
    {acc : List (String × JsonValue)} (h : ∀ av ∈ acc, ¬(av.1 = k)) :
    objInsert k v acc = acc ++ [(k, v)] := by
  unfold objInsert
  rw [if_neg]
  intro hany
  rw [List.any_eq_true] at hany
  obtain ⟨x, hx, hxk⟩ := hany
  exact h x hx (by simpa using hxk)

theorem nodupKeys_cons {k : String} {ks : List String}
    (h : nodupKeys (k :: ks) = true) :
    ks.contains k = false ∧ nodupKeys ks = true := by
  simp only [nodupKeys, Bool.and_eq_true] at h
  exact ⟨by simpa using h.1, h.2⟩

theorem contains_false_ne {k : String} {ks : List String}
    (h : ks.contains k = false) : ∀ x ∈ ks, ¬(x = k) := by
  intro x hx heq
  subst heq
  have hmem : ks.contains x = true := by
    simpa using hx
  rw [hmem] at h
  exact absurd h (by simp)

/-- Generic round trip for serialized object members: `parseMembers` folds
the members, in order, onto `acc`. -/
theorem parseMembers_generic {β : Type} (serV : β → List Char)
    (jsonV : β → JsonValue) (costV : β → Nat) (P : β → Prop)
    (hcost1 : ∀ b, 1 ≤ costV b)
    (hval : ∀ (b : β) (rest : List Char) (fuel : Nat), P b → costV b ≤ fuel →
      parseValue fuel (serV b ++ rest) = some (jsonV b, rest)) :
    ∀ (l : List (String × β)) (acc : List (String × JsonValue))
      (rest : List Char) (fuel : Nat),
      l ≠ [] →
      (∀ kv ∈ l, goodStr kv.1 = true ∧ P kv.2) →
      nodupKeys (l.map (fun kv => kv.1)) = true →
      (∀ kv ∈ l, ∀ av ∈ acc, ¬(av.1 = kv.1)) →
      membersCostBy costV l ≤ fuel →
      parseMembers fuel (serializeItems (serMember serV) l ++ '}' :: rest) acc
        = some (.obj (acc ++ l.map (fun kv => (kv.1, jsonV kv.2))), rest) := by
  intro l
  induction l with
  | nil => intro acc rest fuel hne; exact absurd rfl hne
  | cons kv l ih =>
    intro acc rest fuel _ hgood hnodup hfresh hfuel
    have hc1 : 1 ≤ costV kv.2 := hcost1 kv.2
    have hmc : membersCostBy costV (kv :: l)
        = costV kv.2 + 1 + membersCostBy costV l := rfl
    obtain ⟨f, rfl⟩ : ∃ f, fuel = f + 1 := ⟨fuel - 1, by omega⟩
    obtain ⟨hk, hP⟩ := hgood kv (List.mem_cons_self kv l)
    have hfr : ∀ av ∈ acc, ¬(av.1 = kv.1) :=
      fun av hav => hfresh kv (List.mem_cons_self kv l) av hav
    obtain ⟨f', rfl⟩ : ∃ f', f = f' + 1 := ⟨f - 1, by omega⟩
    cases l with
    | nil =>
      show parseMembers (f' + 1 + 1)
        (serMember serV kv ++ '}' :: rest) acc = _
      rw [serMember_shape, parseMembers_quote_step,
        parseStringChars_plain (goodStr_charOk hk)]
      simp only []
      rw [dropWhile_cons_neg _ (by decide : isJsonWs ':' = false)]
      simp only []
      rw [parseValue_cons_ws (by decide : isJsonWs ' ' = true),
        hval kv.2 ('}' :: rest) (f' + 1) hP (by omega)]
      simp only []
      rw [dropWhile_cons_neg _ (by decide : isJsonWs '}' = false)]
      simp only []
      rw [show String.mk kv.1.data = kv.1 from rfl]
      rw [objInsert_fresh hfr]
      rfl
    | cons kv2 l2 =>
      show parseMembers (f' + 1 + 1)
        ((serMember serV kv
          ++ ',' :: ' ' :: serializeItems (serMember serV) (kv2 :: l2))
          ++ '}' :: rest) acc = _
      rw [List.append_assoc, serMember_shape, parseMembers_quote_step,
        parseStringChars_plain (goodStr_charOk hk)]
      simp only []
      rw [dropWhile_cons_neg _ (by decide : isJsonWs ':' = false)]
      simp only []
      rw [show (',' :: ' ' :: serializeItems (serMember serV) (kv2 :: l2))
            ++ '}' :: rest
          = ',' :: ' ' :: (serializeItems (serMember serV) (kv2 :: l2)
            ++ '}' :: rest) from by simp]
      rw [parseValue_cons_ws (by decide : isJsonWs ' ' = true),
        hval kv.2
          (',' :: ' ' :: (serializeItems (serMember serV) (kv2 :: l2)
            ++ '}' :: rest))
          (f' + 1) hP (by omega)]
      simp only []
      rw [dropWhile_cons_neg _ (by decide : isJsonWs ',' = false)]
      simp only []
      rw [show String.mk kv.1.data = kv.1 from rfl]
      rw [parseMembers_cons_ws (by decide : isJsonWs ' ' = true)]
      rw [objInsert_fresh hfr]
      have hnodup0 : nodupKeys (kv.1 :: (kv2 :: l2).map (fun kv => kv.1))
          = true := by
        simpa using hnodup
      have hnodup' := nodupKeys_cons hnodup0
      have hne1 : ∀ kv' ∈ kv2 :: l2, ¬(kv.1 = kv'.1) := by
        intro kv' hkv' heq
        have := contains_false_ne hnodup'.1 kv'.1
          (List.mem_map_of_mem _ hkv')
        exact this heq.symm
      rw [ih (acc ++ [(kv.1, jsonV kv.2)]) rest (f' + 1)
        (by simp)
        (fun kv' hkv' => hgood kv' (List.mem_cons_of_mem kv hkv'))
        hnodup'.2
        (by
          intro kv' hkv' av hav
          rw [List.mem_append] at hav
          rcases hav with hav | hav
          · exact hfresh kv' (List.mem_cons_of_mem kv hkv') av hav
          · rw [List.mem_singleton] at hav
            subst hav
            exact hne1 kv' hkv')
        (by
          rw [hmc] at hfuel
          omega)]
      simp

/-- Generic round trip for serialized array elements. -/
theorem parseElems_generic {β : Type} (serV : β → List Char)
    (jsonV : β → JsonValue) (costV : β → Nat) (P : β → Prop)
    (hcost1 : ∀ b, 1 ≤ costV b)
    (hval : ∀ (b : β) (rest : List Char) (fuel : Nat), P b → costV b ≤ fuel →
      parseValue fuel (serV b ++ rest) = some (jsonV b, rest)) :
    ∀ (l : List β) (acc : List JsonValue) (rest : List Char) (fuel : Nat),
      l ≠ [] →
      (∀ x ∈ l, P x) →
      elemsCostBy costV l ≤ fuel →
      parseElems fuel (serializeItems serV l ++ ']' :: rest) acc
        = some (.arr (acc ++ l.map jsonV), rest) := by
  intro l
  induction l with
  | nil => intro acc rest fuel hne; exact absurd rfl hne
  | cons x l ih =>
    intro acc rest fuel _ hP hfuel
    have hc1 : 1 ≤ costV x := hcost1 x
    have hec : elemsCostBy costV (x :: l)
        = costV x + 1 + elemsCostBy costV l := rfl
    obtain ⟨f, rfl⟩ : ∃ f, fuel = f + 1 := ⟨fuel - 1, by omega⟩
    have hPx := hP x (List.mem_cons_self x l)
    rw [parseElems.eq_2]
    cases l with
    | nil =>
      show (match parseValue f (serV x ++ ']' :: rest) with
            | none => none
            | some (v, rest1) =>
              match rest1.dropWhile isJsonWs with
              | ',' :: rest2 => parseElems f rest2 (acc ++ [v])
              | ']' :: rest2 => some (.arr (acc ++ [v]), rest2)
              | _ => none) = _
      rw [hval x (']' :: rest) f hPx (by omega)]
      simp only []
      rw [dropWhile_cons_neg _ (by decide : isJsonWs ']' = false)]
      rfl
    | cons y l2 =>
      show (match parseValue f
              ((serV x ++ ',' :: ' ' :: serializeItems serV (y :: l2))
                ++ ']' :: rest) with
            | none => none
            | some (v, rest1) =>
              match rest1.dropWhile isJsonWs with
              | ',' :: rest2 => parseElems f rest2 (acc ++ [v])
              | ']' :: rest2 => some (.arr (acc ++ [v]), rest2)
              | _ => none) = _
      rw [List.append_assoc]
      rw [show (',' :: ' ' :: serializeItems serV (y :: l2)) ++ ']' :: rest
          = ',' :: ' ' :: (serializeItems serV (y :: l2) ++ ']' :: rest)
          from by simp]
      rw [hval x
        (',' :: ' ' :: (serializeItems serV (y :: l2) ++ ']' :: rest))
        f hPx (by omega)]
      simp only []
      rw [dropWhile_cons_neg _ (by decide : isJsonWs ',' = false)]
      simp only []
      obtain ⟨f2, rfl⟩ : ∃ f2, f = f2 + 1 := ⟨f - 1, by
        have h2 := hcost1 y
        have : elemsCostBy costV (y :: l2)
            = costV y + 1 + elemsCostBy costV l2 := rfl
        omega⟩
      rw [parseElems_cons_ws (by decide : isJsonWs ' ' = true)]
      rw [ih (acc ++ [jsonV x]) rest (f2 + 1) (by simp)
        (fun z hz => hP z (List.mem_cons_of_mem x hz))
        (by omega)]
      simp

theorem goodFlatObj_nodup {o : List (String × String)}
    (h : goodFlatObj o = true) :
    nodupKeys (o.map (fun kv => kv.1)) = true := by
  simp only [goodFlatObj, Bool.and_eq_true] at h
  exact h.2

theorem goodSect_nodup {s : List (String × FieldVal)} (h : goodSect s = true) :
    nodupKeys (s.map (fun kv => kv.1)) = true := by
  simp only [goodSect, Bool.and_eq_true] at h
  exact h.2

theorem goodRec_nodup {r : List (String × SectVal)}
    (h : goodRec r = true) :
    nodupKeys (r.map (fun kv => kv.1)) = true := by
  simp only [goodRec, Bool.and_eq_true] at h
  exact h.2

/-- Serialized flat string objects parse back to themselves. -/
theorem parseValue_serializeFlatObj {o : List (String × String)}
    (h : goodFlatObj o = true) (rest : List Char) :
    ∀ fuel, flatObjCost o ≤ fuel →
      parseValue fuel (serializeFlatObj o ++ rest)
        = some (.obj (o.map (fun kv => (kv.1, .str kv.2))), rest) := by
  intro fuel hfuel
  have h1 : 1 ≤ flatObjCost o := by
    simp only [flatObjCost]
    omega
  obtain ⟨f, rfl⟩ : ∃ f, fuel = f + 1 := ⟨fuel - 1, by omega⟩
  cases o with
  | nil => exact parseValue_brace_close f rest
  | cons kv o2 =>
    have hshape : serializeFlatObj (kv :: o2) ++ rest
        = '{' :: (serializeItems (serMember serializeStr) (kv :: o2)
          ++ '}' :: rest) := by
      show (('{' :: serializeItems serializePair (kv :: o2)) ++ ['}']) ++ rest
        = _
      rw [serializePair_eq_serMember]
      simp
    rw [hshape]
    obtain ⟨t, ht⟩ := serializeItems_cons_decomp (serMember serializeStr) kv o2
    rw [ht, List.append_assoc, serMember_shape, parseValue_brace_quote,
      ← serMember_shape, ← List.append_assoc, ← ht]
    rw [parseMembers_generic serializeStr (fun s => .str s) (fun _ => 1)
      (fun s => goodStr s = true) (fun _ => le_refl 1)
      (fun b r fuel hb hf => parseValue_serializeStr hb r fuel hf)
      (kv :: o2) [] rest f
      (by simp)
      (goodFlatObj_elim h)
      (goodFlatObj_nodup h)
      (by simp)
      (by
        simp only [flatObjCost] at hfuel
        omega)]
    simp

theorem goodFieldVal_list_elim {vs : List String}
    (h : goodFieldVal (.list vs) = true) : ∀ v ∈ vs, goodStr v = true := by
  simp only [goodFieldVal, List.all_eq_true] at h
  exact h

theorem goodFieldVal_olist_elim {os : List (List (String × String))}
    (h : goodFieldVal (.olist os) = true) :
    ∀ o ∈ os, goodFlatObj o = true := by
  simp only [goodFieldVal, List.all_eq_true] at h
  exact h

/-- Serialized field values parse back to their `json.loads` image. -/
theorem parseValue_serializeFieldVal {fv : FieldVal}
    (h : goodFieldVal fv = true) (rest : List Char) :
    ∀ fuel, fieldValCost fv ≤ fuel →
      parseValue fuel (serializeFieldVal fv ++ rest)
        = some (jsonOfFieldVal fv, rest) := by
  intro fuel hfuel
  cases fv with
  | s v =>
    exact parseValue_serializeStr h rest fuel (by
      simp only [fieldValCost] at hfuel
      omega)
  | list vs =>
    have h1 : 1 ≤ fieldValCost (.list vs) := by
      simp only [fieldValCost]
      omega
    obtain ⟨f, rfl⟩ : ∃ f, fuel = f + 1 := ⟨fuel - 1, by omega⟩
    cases vs with
    | nil => exact parseValue_bracket_close f rest
    | cons v vs2 =>
      have hshape : serializeFieldVal (.list (v :: vs2)) ++ rest
          = '[' :: (serializeItems serializeStr (v :: vs2) ++ ']' :: rest) := by
        show (('[' :: serializeItems serializeStr (v :: vs2)) ++ [']']) ++ rest
          = _
        simp
      rw [hshape]
      obtain ⟨t, ht⟩ := serializeItems_cons_decomp serializeStr v vs2
      have hv : serializeStr v = '"' :: (v.data ++ ['"']) := by
        simp [serializeStr]
      rw [ht]
      rw [show ((serializeStr v ++ t) ++ ']' :: rest)
          = serializeStr v ++ (t ++ ']' :: rest) from by simp]
      rw [hv, List.cons_append, parseValue_bracket_quote, ← List.cons_append,
        ← hv]
      rw [show serializeStr v ++ (t ++ ']' :: rest)
          = (serializeStr v ++ t) ++ ']' :: rest from by simp]
      rw [← ht]
      rw [parseElems_generic serializeStr (fun s => .str s) (fun _ => 1)
        (fun s => goodStr s = true) (fun _ => le_refl 1)
        (fun b r fuel hb hf => parseValue_serializeStr hb r fuel hf)
        (v :: vs2) [] rest f
        (by simp)
        (goodFieldVal_list_elim h)
        (by
          simp only [fieldValCost] at hfuel
          omega)]
      simp [jsonOfFieldVal]
  | olist os =>
    have h1 : 1 ≤ fieldValCost (.olist os) := by
      simp only [fieldValCost]
      omega
    obtain ⟨f, rfl⟩ : ∃ f, fuel = f + 1 := ⟨fuel - 1, by omega⟩
    cases os with
    | nil => exact parseValue_bracket_close f rest
    | cons o os2 =>
      have hshape : serializeFieldVal (.olist (o :: os2)) ++ rest
          = '[' :: (serializeItems serializeFlatObj (o :: os2)
            ++ ']' :: rest) := by
        show (('[' :: serializeItems serializeFlatObj (o :: os2)) ++ [']'])
          ++ rest = _
        simp
      rw [hshape]
      obtain ⟨t, ht⟩ := serializeItems_cons_decomp serializeFlatObj o os2
      have ho : serializeFlatObj o
          = '{' :: (serializeItems serializePair o ++ ['}']) := by
        show ('{' :: serializeItems serializePair o) ++ ['}'] = _
        simp
      rw [ht]
      rw [show ((serializeFlatObj o ++ t) ++ ']' :: rest)
          = serializeFlatObj o ++ (t ++ ']' :: rest) from by simp]
      rw [ho, List.cons_append, parseValue_bracket_brace, ← List.cons_append,
        ← ho]
      rw [show serializeFlatObj o ++ (t ++ ']' :: rest)
          = (serializeFlatObj o ++ t) ++ ']' :: rest from by simp]
      rw [← ht]
      rw [parseElems_generic serializeFlatObj
        (fun o => .obj (o.map (fun kv => (kv.1, .str kv.2))))
        flatObjCost (fun o => goodFlatObj o = true)
        (fun b => by
          simp only [flatObjCost]
          omega)
        (fun b r fuel hb hf => parseValue_serializeFlatObj hb r fuel hf)
        (o :: os2) [] rest f
        (by simp)
        (goodFieldVal_olist_elim h)
        (by
          simp only [fieldValCost] at hfuel
          omega)]
      simp [jsonOfFieldVal]

/-- Serialized sections parse back to their `json.loads` image. -/
theorem parseValue_serializeSect {s : List (String × FieldVal)}
    (h : goodSect s = true) (rest : List Char) :
    ∀ fuel, sectCost s ≤ fuel →
      parseValue fuel (serializeSect s ++ rest)
        = some (jsonOfSect s, rest) := by
  intro fuel hfuel
  have h1 : 1 ≤ sectCost s := by
    simp only [sectCost]
    omega
  obtain ⟨f, rfl⟩ : ∃ f, fuel = f + 1 := ⟨fuel - 1, by omega⟩
  cases s with
  | nil => exact parseValue_brace_close f rest
  | cons kv s2 =>
    have hshape : serializeSect (kv :: s2) ++ rest
        = '{' :: (serializeItems (serMember serializeFieldVal) (kv :: s2)
          ++ '}' :: rest) := by
      show (('{' :: serializeItems serializeField (kv :: s2)) ++ ['}']) ++ rest
        = _
      rw [serializeField_eq_serMember]
      simp
    rw [hshape]
    obtain ⟨t, ht⟩ :=
      serializeItems_cons_decomp (serMember serializeFieldVal) kv s2
    rw [ht, List.append_assoc, serMember_shape, parseValue_brace_quote,
      ← serMember_shape, ← List.append_assoc, ← ht]
    rw [parseMembers_generic serializeFieldVal jsonOfFieldVal fieldValCost
      (fun fv => goodFieldVal fv = true)
      (fun fv => by
        cases fv <;> simp [fieldValCost])
      (fun b r fuel hb hf => parseValue_serializeFieldVal hb r fuel hf)
      (kv :: s2) [] rest f
      (by simp)
      (goodSect_elim h)
      (goodSect_nodup h)
      (by simp)
      (by
        simp only [sectCost] at hfuel
        omega)]
    simp [jsonOfSect]

/-- Serialized top-level section values parse back to their image. -/
theorem parseValue_serializeSectVal {sv : SectVal}
    (h : goodSectVal sv = true) (rest : List Char) :
    ∀ fuel, sectValCost sv ≤ fuel →
      parseValue fuel (serializeSectVal sv ++ rest)
        = some (jsonOfSectVal sv, rest) := by
  intro fuel hfuel
  cases sv with
  | obj fields => exact parseValue_serializeSect h rest fuel hfuel
  | olist os =>
    have h' : goodFieldVal (.olist os) = true := by
      simp only [goodFieldVal]
      simpa [goodSectVal] using h
    show parseValue fuel (serializeFieldVal (.olist os) ++ rest)
      = some (jsonOfFieldVal (.olist os), rest)
    exact parseValue_serializeFieldVal h' rest fuel hfuel

/-- The serialized record parses back to its `json.loads` image. -/
theorem parseValue_serializeRec
    {r : List (String × SectVal)} (h : goodRec r = true)
    (rest : List Char) :
    ∀ fuel, recCost r ≤ fuel →
      parseValue fuel (serializeRec r ++ rest)
        = some (jsonOfRec r, rest) := by
  intro fuel hfuel
  have h1 : 1 ≤ recCost r := by
    simp only [recCost]
    omega
  obtain ⟨f, rfl⟩ : ∃ f, fuel = f + 1 := ⟨fuel - 1, by omega⟩
  cases r with
  | nil => exact parseValue_brace_close f rest
  | cons kv r2 =>
    have hshape : serializeRec (kv :: r2) ++ rest
        = '{' :: (serializeItems (serMember serializeSectVal) (kv :: r2)
          ++ '}' :: rest) := by
      show (('{' :: serializeItems serializeTopField (kv :: r2)) ++ ['}'])
        ++ rest = _
      rw [serializeTopField_eq_serMember]
      simp
    rw [hshape]
    obtain ⟨t, ht⟩ :=
      serializeItems_cons_decomp (serMember serializeSectVal) kv r2
    rw [ht, List.append_assoc, serMember_shape, parseValue_brace_quote,
      ← serMember_shape, ← List.append_assoc, ← ht]
    rw [parseMembers_generic serializeSectVal jsonOfSectVal sectValCost
      (fun sv => goodSectVal sv = true)
      (fun sv => by
        cases sv with
        | obj fields =>
          show 1 ≤ sectCost fields
          simp only [sectCost]
          omega
        | olist os =>
          show 1 ≤ elemsCostBy flatObjCost os + 1
          omega)
      (fun b r' fuel hb hf => parseValue_serializeSectVal hb r' fuel hf)
      (kv :: r2) [] rest f
      (by simp)
      (goodRec_elim h)
      (goodRec_nodup h)
      (by simp)
      (by
        simp only [recCost] at hfuel
        omega)]
    simp [jsonOfRec]

theorem length_serializeStr (s : String) :
    (serializeStr s).length = s.data.length + 2 := by
  simp [serializeStr]

theorem length_serMember (serV : β → List Char) (kv : String × β) :
    (serMember serV kv).length
      = kv.1.data.length + 4 + (serV kv.2).length := by
  simp [serMember, serializeStr]
  omega

theorem membersCostBy_le {β} (costV : β → Nat) (serV : β → List Char) :
    ∀ l : List (String × β), (∀ kv ∈ l, costV kv.2 ≤ (serV kv.2).length) →
      membersCostBy costV l ≤ (serializeItems (serMember serV) l).length + 1 := by
  intro l
  induction l with
  | nil => intro _; simp [membersCostBy, serializeItems]
  | cons kv l2 ih =>
    intro h
    have h1 := h kv (List.mem_cons_self kv l2)
    have hlen := length_serMember serV kv
    cases l2 with
    | nil =>
      show costV kv.2 + 1 + 0 ≤ (serMember serV kv).length + 1
      omega
    | cons kv2 l3 =>
      have ih2 := ih (fun x hx => h x (List.mem_cons_of_mem kv hx))
      show costV kv.2 + 1 + membersCostBy costV (kv2 :: l3)
        ≤ (serMember serV kv
          ++ ',' :: ' ' :: serializeItems (serMember serV) (kv2 :: l3)).length
          + 1
      simp only [List.length_append, List.length_cons]
      omega

theorem elemsCostBy_le {β} (costV : β → Nat) (serV : β → List Char) :
    ∀ l : List β, (∀ x ∈ l, costV x ≤ (serV x).length) →
      elemsCostBy costV l ≤ (serializeItems serV l).length + 1 := by
  intro l
  induction l with
  | nil => intro _; simp [elemsCostBy, serializeItems]
  | cons x l2 ih =>
    intro h
    have h1 := h x (List.mem_cons_self x l2)
    cases l2 with
    | nil =>
      show costV x + 1 + 0 ≤ (serV x).length + 1
      omega
    | cons y l3 =>
      have ih2 := ih (fun z hz => h z (List.mem_cons_of_mem x hz))
      show costV x + 1 + elemsCostBy costV (y :: l3)
        ≤ (serV x ++ ',' :: ' ' :: serializeItems serV (y :: l3)).length + 1
      simp only [List.length_append, List.length_cons]
      omega

theorem flatObjCost_le (o : List (String × String)) :
    flatObjCost o ≤ (serializeFlatObj o).length := by
  have hb := membersCostBy_le (fun _ => 1) serializeStr o
    (fun kv _ => by
      show 1 ≤ (serializeStr kv.2).length
      rw [length_serializeStr]
      omega)
  show membersCostBy (fun _ => 1) o + 1
    ≤ (('{' :: serializeItems serializePair o) ++ ['}']).length
  rw [serializePair_eq_serMember]
  simp only [List.length_append, List.length_cons]
  simp at hb ⊢
  omega

theorem fieldValCost_le (fv : FieldVal) :
    fieldValCost fv ≤ (serializeFieldVal fv).length := by
  cases fv with
  | s v =>
    show 1 ≤ (serializeStr v).length
    rw [length_serializeStr]
    omega
  | list vs =>
    have hb := elemsCostBy_le (fun _ => 1) serializeStr vs
      (fun v _ => by
        show 1 ≤ (serializeStr v).length
        rw [length_serializeStr]
        omega)
    show elemsCostBy (fun _ => 1) vs + 1
      ≤ (('[' :: serializeItems serializeStr vs) ++ [']']).length
    simp only [List.length_append, List.length_cons]
    simp at hb ⊢
    omega
  | olist os =>
    have hb := elemsCostBy_le flatObjCost serializeFlatObj os
      (fun o _ => flatObjCost_le o)
    show elemsCostBy flatObjCost os + 1
      ≤ (('[' :: serializeItems serializeFlatObj os) ++ [']']).length
    simp only [List.length_append, List.length_cons]
    simp at hb ⊢
    omega

theorem sectCost_le (s : List (String × FieldVal)) :
    sectCost s ≤ (serializeSect s).length := by
  have hb := membersCostBy_le fieldValCost serializeFieldVal s
    (fun kv _ => fieldValCost_le kv.2)
  show membersCostBy fieldValCost s + 1
    ≤ (('{' :: serializeItems serializeField s) ++ ['}']).length
  rw [serializeField_eq_serMember]
  simp only [List.length_append, List.length_cons]
  simp at hb ⊢
  omega

theorem sectValCost_le (sv : SectVal) :
    sectValCost sv ≤ (serializeSectVal sv).length := by
  cases sv with
  | obj fields => exact sectCost_le fields
  | olist os =>
    have hb := elemsCostBy_le flatObjCost serializeFlatObj os
      (fun o _ => flatObjCost_le o)
    show elemsCostBy flatObjCost os + 1
      ≤ (('[' :: serializeItems serializeFlatObj os) ++ [']']).length
    simp only [List.length_append, List.length_cons]
    simp at hb ⊢
    omega

theorem recCost_le (r : List (String × SectVal)) :
    recCost r ≤ (serializeRec r).length := by
  have hb := membersCostBy_le sectValCost serializeSectVal r
    (fun kv _ => sectValCost_le kv.2)
  show membersCostBy sectValCost r + 1
    ≤ (('{' :: serializeItems serializeTopField r) ++ ['}']).length
  rw [serializeTopField_eq_serMember]
  simp only [List.length_append, List.length_cons]
  simp at hb ⊢
  omega

theorem json_loads_serializeRec {r : List (String × SectVal)}
    (h : goodRec r = true) :
    json_loads (String.mk (serializeRec r)) = some (jsonOfRec r) := by
  unfold json_loads
  have hparse : parseValue (2 * (serializeRec r).length + 2)
      (serializeRec r ++ []) = some (jsonOfRec r, []) :=
    parseValue_serializeRec h [] _ (by
      have := recCost_le r
      omega)
  rw [List.append_nil] at hparse
  rw [show (String.mk (serializeRec r)).data = serializeRec r from rfl,
    hparse]
  rfl

/-- Two-level string lookup in a parsed record (section, then field). -/
def strField (v : JsonValue) (sec fld : String) : Option String :=
  match objLookup v sec with
  | some s =>
    match objLookup s fld with
    | some (.str x) => some x
    | _ => none
  | none => none

/-- A record holding every section and field of the schema prompt
(src/app.py lines 92-157), with the rationale value parameterised. -/
def rSchemaC4 (rat : String) : List (String × SectVal) :=
  [("company_overview", .obj
      [("name", .s "Acme"), ("founding_year", .s "2021"),
       ("stage", .s "Seed"), ("one_liner", .s "AI ops"),
       ("industry", .s "SaaS")]),
   ("founders", .olist
      [[("name", "Jo Doe"), ("role", "CEO"),
        ("background", "MIT"), ("founder_market_fit", "high")]]),
   ("problem_and_market", .obj
      [("problem_statement", .s "slow ops"), ("market_size_tam", .s "$5B"),
       ("market_growth_rate", .s "20%"), ("target_customer", .s "SMBs"),
       ("market_validation", .s "pilots")]),
   ("unique_differentiator", .obj
      [("core_technology", .s "LLM"), ("competitive_moat", .s "data"),
       ("ip_assets", .s "none"), ("barriers_to_entry", .s "scale")]),
   ("team_and_traction", .obj
      [("team_size", .s "12"), ("customer_count", .s "40"),
       ("arr_mrr", .s "$1M ARR"), ("growth_metrics", .s "10% MoM"),
       ("key_customers", .list ["Acme Corp", "Globex"]),
       ("partnerships", .list ["AWS"]),
       ("revenue_model", .s "subscriptions")]),
   ("financials", .obj
      [("current_revenue", .s "$1M"), ("revenue_projections", .s "$4M"),
       ("funding_raised", .s "$2M"), ("current_ask", .s "$5M"),
       ("valuation", .s "$25M"), ("burn_rate", .s "$80k"),
       ("runway", .s "18 months"), ("unit_economics", .s "LTV 3x CAC"),
       ("retention_rate", .s "95%"), ("growth_rate", .s "120%"),
       ("cac_ltv_ratio", .s "3:1"), ("gross_margin", .s "80%"),
       ("churn_rate", .s "5%")]),
   ("investment_thesis", .obj
      [("strengths", .list ["team", "market"]),
       ("risks", .list ["competition"]),
       ("market_opportunity", .s "large"),
       ("execution_risk", .s "low")]),
   ("recommendation", .obj
      [("signal_score", .s "4"), ("investment_decision", .s "BUY"),
       ("rationale", .s rat),
       ("comparable_companies", .list ["Datadog"])])]

set_option maxRecDepth 40000 in
/-- C4, counterexample: a syntactically valid full-schema JSON object whose
rationale value contains a comma followed by a closing brace. The strict
parser alone returns it verbatim (first conjunct: the text is valid JSON),
but tier 1's trailing-comma repair deletes the comma inside the string
literal, so `parse_json_response` returns a record whose rationale has been
mutated from "Strong team,\x7d" to "Strong team\x7d". -/
theorem tier1_mutation_cex :
    json_loads (String.mk (serializeRec (rSchemaC4 "Strong team,\x7d")))
      = some (jsonOfRec (rSchemaC4 "Strong team,\x7d")) ∧
    parse_json_response (String.mk (serializeRec (rSchemaC4 "Strong team,\x7d")))
      = jsonOfRec (rSchemaC4 "Strong team\x7d") ∧
    strField (jsonOfRec (rSchemaC4 "Strong team,\x7d"))
      "recommendation" "rationale" = some "Strong team,\x7d" ∧
    strField (jsonOfRec (rSchemaC4 "Strong team\x7d"))
      "recommendation" "rationale" = some "Strong team\x7d" :=
  ⟨rfl, rfl, rfl, rfl⟩

/-- C4: for every schema-shaped record whose strings contain no quote,
backslash, control character or backtick and no comma resolving (through
whitespace) to a closing brace/bracket or the end of the string, tier 1 on
the serialized JSON text succeeds and reproduces every field's value
exactly — the parsed record is the `json.loads` image of the record, no
field dropped, mutated, or defaulted to the sentinel. (The restriction is
necessary: see the counterexample.) -/
theorem tier1_round_trip (r : List (String × SectVal))
    (h : goodRec r = true) :
    tier1Result (String.mk (serializeRec r)) = some (jsonOfRec r) ∧
    parse_json_response (String.mk (serializeRec r)) = jsonOfRec r := by
  have hc := candidateOf_serializeRec h
  have hj := json_loads_serializeRec h
  have ht : tier1 (String.mk (serializeRec r)) = .ok (some (jsonOfRec r)) := by
    simp only [tier1, hc, hj]
  exact ⟨by simp only [tier1Result, ht],
    by simp only [parse_json_response, ht]⟩

def rWitC4 : List (String × SectVal) :=
  [("company_overview", .obj [("name", .s "Acme")]),
   ("founders", .olist [[("name", "Jo"), ("role", "CEO")]]),
   ("investment_thesis", .obj [("strengths", .list ["Fast", "Cheap"])])]

theorem tier1_round_trip_witness :
    goodRec rWitC4 = true ∧
    tier1Result (String.mk (serializeRec rWitC4)) = some (jsonOfRec rWitC4) ∧
    parse_json_response (String.mk (serializeRec rWitC4))
      = jsonOfRec rWitC4 :=
  ⟨by decide, (tier1_round_trip rWitC4 (by decide)).1,
    (tier1_round_trip rWitC4 (by decide)).2⟩


theorem isJsonWs_isPyWs {x : Char} (h : isJsonWs x = true) : isPyWs x = true := by
  simp only [isJsonWs, Bool.or_eq_true, decide_eq_true_eq] at h
  simp only [isPyWs, Bool.or_eq_true, decide_eq_true_eq]
  tauto

theorem commaSafe_suffix :
    ∀ (a : List Char) {b : List Char}, commaSafe (a ++ b) = true →
      commaSafe b = true := by
  intro a
  induction a with
  | nil => intro b h; exact h
  | cons x a ih =>
    intro b h
    rw [List.cons_append] at h
    simp only [commaSafe, Bool.and_eq_true] at h
    exact ih h.2

/-- When the suffix resolves through whitespace to a closer, every comma of
the prefix must resolve strictly inside the prefix, so the prefix alone is
comma-safe. -/
theorem commaSafe_prefix_closer :
    ∀ (a : List Char) {b : List Char} {d : Char} {tl : List Char},
      commaSafe (a ++ b) = true → b.dropWhile isPyWs = d :: tl →
      (d = '}' || d = ']') = true → commaSafe a = true := by
  intro a
  induction a with
  | nil => intro b d tl _ _ _; rfl
  | cons x a ih =>
    intro b d tl h hb hd
    rw [List.cons_append] at h
    simp only [commaSafe, Bool.and_eq_true] at h ⊢
    obtain ⟨h1, h2⟩ := h
    refine ⟨?_, ih h2 hb hd⟩
    by_cases hx : x = ','
    · rw [if_pos hx] at h1 ⊢
      cases hdw : a.dropWhile isPyWs with
      | cons e l =>
        rw [dropWhile_append_of_cons hdw b] at h1
        exact h1
      | nil =>
        have haw : ∀ y ∈ a, isPyWs y = true := by
          intro y hy
          exact List.dropWhile_eq_nil_iff.mp hdw y hy
        rw [dropWhile_append_all haw, hb] at h1
        have h1' : (!(decide (d = '}') || decide (d = ']'))) = true := h1
        rw [hd] at h1'
        exact absurd h1' (by simp)
    · rw [if_neg hx]

/-- Inserting one comma before a whitespace run that ends at a closer, in a
text whose own commas are all safe, is undone exactly by the repair. -/
theorem removeTrailingCommas_insert_comma
    (pre ws post : List Char) (c : Char)
    (hpre : commaSafe pre = true)
    (hws : ∀ x ∈ ws, isPyWs x = true)
    (hc : (c = '}' || c = ']') = true)
    (hcw : isPyWs c = false)
    (hpost : commaSafe post = true) :
    removeTrailingCommas (pre ++ ',' :: (ws ++ c :: post))
      = pre ++ (ws ++ c :: post) := by
  rw [removeTrailingCommas_append _ hpre]
  congr 1
  show removeTCF (',' :: (ws ++ c :: post)).length (',' :: (ws ++ c :: post))
    = ws ++ c :: post
  have hdw : (ws ++ c :: post).dropWhile isPyWs = c :: post := by
    rw [dropWhile_append_all hws]
    exact dropWhile_cons_neg _ hcw
  have htw : (ws ++ c :: post).takeWhile isPyWs = ws := by
    rw [takeWhile_append_all hws, takeWhile_cons_neg _ hcw, List.append_nil]
  have hlen : (',' :: (ws ++ c :: post)).length
      = (ws ++ c :: post).length + 1 := rfl
  rw [hlen]
  simp only [removeTCF, if_pos rfl, hdw, hc, if_true, htw]
  rw [removeTCF_eq_self _ hpost]

/-- C8: trailing-comma tolerance over arbitrary JSON object texts. Take any
text that starts with a brace, ends with a closing brace, contains no
backtick, has no comma of its own resolving through whitespace to a closer
(in particular no trailing comma), and that `json.loads` parses to `v`.
Inserting one comma before any closing brace or bracket of the text —
separated from it by any run of JSON whitespace — yields a text that tier 1
still parses successfully to the very same `v`, and `parse_json_response`
agrees on the comma-bearing text and its comma-free equivalent. -/
theorem trailing_comma_tolerance
    (pre1 ws post : List Char) (c : Char) (v : JsonValue)
    (hc : (c = '}' || c = ']') = true)
    (hws : ∀ x ∈ ws, isJsonWs x = true)
    (hlast : ∃ q, c :: post = q ++ ['}'])
    (hsafe : commaSafe (('{' :: pre1) ++ (ws ++ c :: post)) = true)
    (hnt : ∀ x ∈ ('{' :: pre1) ++ (ws ++ c :: post), ¬(x = btick))
    (hparse : json_loads (String.mk (('{' :: pre1) ++ (ws ++ c :: post)))
      = some v) :
    tier1Result (String.mk (('{' :: pre1) ++ ',' :: (ws ++ c :: post)))
      = some v ∧
    tier1Result (String.mk (('{' :: pre1) ++ (ws ++ c :: post))) = some v ∧
    parse_json_response (String.mk (('{' :: pre1) ++ ',' :: (ws ++ c :: post)))
      = parse_json_response (String.mk (('{' :: pre1) ++ (ws ++ c :: post))) := by
  obtain ⟨q, hq⟩ := hlast
  have hwsPy : ∀ x ∈ ws, isPyWs x = true := fun x hx => isJsonWs_isPyWs (hws x hx)
  have hc' : c = '}' ∨ c = ']' := by simpa using hc
  have hcPy : isPyWs c = false := by rcases hc' with h | h <;> subst h <;> decide
  have hdwB : (ws ++ c :: post).dropWhile isPyWs = c :: post := by
    rw [dropWhile_append_all hwsPy]
    exact dropWhile_cons_neg _ hcPy
  have hpreSafe : commaSafe ('{' :: pre1) = true :=
    commaSafe_prefix_closer _ hsafe hdwB hc
  have hpostSafe : commaSafe post = true := by
    have h1 : commaSafe (ws ++ c :: post) = true := commaSafe_suffix _ hsafe
    have h2 : commaSafe ((ws ++ [c]) ++ post) = true := by
      rw [show (ws ++ [c]) ++ post = ws ++ c :: post from by simp]
      exact h1
    exact commaSafe_suffix _ h2
  have hntW : ∀ x ∈ ('{' :: pre1) ++ ',' :: (ws ++ c :: post), ¬(x = btick) := by
    intro x hx
    rcases List.mem_append.mp hx with h1 | h1
    · exact hnt x (List.mem_append_left _ h1)
    · rcases List.mem_cons.mp h1 with h2 | h2
      · subst h2; decide
      · exact hnt x (List.mem_append_right _ h2)
  have hshapeW : ('{' :: pre1) ++ ',' :: (ws ++ c :: post)
      = '{' :: ((pre1 ++ ',' :: (ws ++ q)) ++ ['}']) := by
    rw [hq]; simp
  have hshapeM : ('{' :: pre1) ++ (ws ++ c :: post)
      = '{' :: ((pre1 ++ (ws ++ q)) ++ ['}']) := by
    rw [hq]; simp
  have hcandW : candidateOf (String.mk (('{' :: pre1) ++ ',' :: (ws ++ c :: post)))
      = some (('{' :: pre1) ++ (ws ++ c :: post)) := by
    have hstrip : pythonStrip (('{' :: pre1) ++ ',' :: (ws ++ c :: post))
        = ('{' :: pre1) ++ ',' :: (ws ++ c :: post) := by
      rw [hshapeW]
      exact pythonStrip_eq_self _ (by decide) (by decide)
    have h1 : subFenceJson (('{' :: pre1) ++ ',' :: (ws ++ c :: post))
        = ('{' :: pre1) ++ ',' :: (ws ++ c :: post) :=
      subFenceJsonF_no_tick _ _ hntW
    have h2 : subFence (('{' :: pre1) ++ ',' :: (ws ++ c :: post))
        = ('{' :: pre1) ++ ',' :: (ws ++ c :: post) :=
      subFenceF_no_tick _ _ hntW
    have h3 : subTicks (('{' :: pre1) ++ ',' :: (ws ++ c :: post))
        = ('{' :: pre1) ++ ',' :: (ws ++ c :: post) :=
      subTicksF_no_tick _ _ hntW
    have hfind : pyFind '{' (('{' :: pre1) ++ ',' :: (ws ++ c :: post))
        = some 0 := by
      rw [List.cons_append]
      exact pyFind_head _ _
    have hrfind : pyRfind '}' (('{' :: pre1) ++ ',' :: (ws ++ c :: post))
        = some ((pre1 ++ ',' :: (ws ++ q)).length + 1) := by
      rw [hshapeW, ← List.cons_append, pyRfind_last]
      simp
    have hlen : (('{' :: pre1) ++ ',' :: (ws ++ c :: post)).length
        = (pre1 ++ ',' :: (ws ++ q)).length + 2 := by
      rw [hshapeW]
      simp
      omega
    simp only [candidateOf]
    rw [hstrip, h1, h2, h3, hfind, hrfind]
    simp only [Option.some.injEq]
    rw [if_pos (by omega)]
    rw [List.drop_zero]
    rw [show (pre1 ++ ',' :: (ws ++ q)).length + 1 + 1 - 0
        = (('{' :: pre1) ++ ',' :: (ws ++ c :: post)).length from by omega]
    rw [List.take_length]
    rw [removeTrailingCommas_insert_comma _ _ _ _ hpreSafe hwsPy hc hcPy hpostSafe]
  have hcandM : candidateOf (String.mk (('{' :: pre1) ++ (ws ++ c :: post)))
      = some (('{' :: pre1) ++ (ws ++ c :: post)) := by
    have hstrip : pythonStrip (('{' :: pre1) ++ (ws ++ c :: post))
        = ('{' :: pre1) ++ (ws ++ c :: post) := by
      rw [hshapeM]
      exact pythonStrip_eq_self _ (by decide) (by decide)
    have h1 : subFenceJson (('{' :: pre1) ++ (ws ++ c :: post))
        = ('{' :: pre1) ++ (ws ++ c :: post) :=
      subFenceJsonF_no_tick _ _ hnt
    have h2 : subFence (('{' :: pre1) ++ (ws ++ c :: post))
        = ('{' :: pre1) ++ (ws ++ c :: post) :=
      subFenceF_no_tick _ _ hnt
    have h3 : subTicks (('{' :: pre1) ++ (ws ++ c :: post))
        = ('{' :: pre1) ++ (ws ++ c :: post) :=
      subTicksF_no_tick _ _ hnt
    have hfind : pyFind '{' (('{' :: pre1) ++ (ws ++ c :: post))
        = some 0 := by
      rw [List.cons_append]
      exact pyFind_head _ _
    have hrfind : pyRfind '}' (('{' :: pre1) ++ (ws ++ c :: post))
        = some ((pre1 ++ (ws ++ q)).length + 1) := by
      rw [hshapeM, ← List.cons_append, pyRfind_last]
      simp
    have hlen : (('{' :: pre1) ++ (ws ++ c :: post)).length
        = (pre1 ++ (ws ++ q)).length + 2 := by
      rw [hshapeM]
      simp
      omega
    simp only [candidateOf]
    rw [hstrip, h1, h2, h3, hfind, hrfind]
    simp only [Option.some.injEq]
    rw [if_pos (by omega)]
    rw [List.drop_zero]
    rw [show (pre1 ++ (ws ++ q)).length + 1 + 1 - 0
        = (('{' :: pre1) ++ (ws ++ c :: post)).length from by omega]
    rw [List.take_length]
    rw [removeTrailingCommas_eq_self hsafe]
  have htierW : tier1 (String.mk (('{' :: pre1) ++ ',' :: (ws ++ c :: post)))
      = .ok (some v) := by
    simp only [tier1, hcandW, hparse]
  have htierM : tier1 (String.mk (('{' :: pre1) ++ (ws ++ c :: post)))
      = .ok (some v) := by
    simp only [tier1, hcandM, hparse]
  refine ⟨?_, ?_, ?_⟩
  · simp only [tier1Result, htierW]
  · simp only [tier1Result, htierM]
  · simp only [parse_json_response, htierW, htierM]

theorem trailing_comma_tolerance_witness :
    commaSafe (('{' :: "\"a\": [\"x\"".data) ++ ([' '] ++ ']' :: ['}'])) = true ∧
    tier1Result
      (String.mk (('{' :: "\"a\": [\"x\"".data) ++ ',' :: ([' '] ++ ']' :: ['}'])))
      = some (.obj [("a", .arr [.str "x"])]) ∧
    parse_json_response
      (String.mk (('{' :: "\"a\": [\"x\"".data) ++ ',' :: ([' '] ++ ']' :: ['}'])))
      = parse_json_response
        (String.mk (('{' :: "\"a\": [\"x\"".data) ++ ([' '] ++ ']' :: ['}']))) :=
  ⟨by decide,
   (trailing_comma_tolerance "\"a\": [\"x\"".data [' '] ['}'] ']'
      (.obj [("a", .arr [.str "x"])]) (by decide) (by decide) ⟨[']'], rfl⟩
      (by decide) (by decide) rfl).1,
   (trailing_comma_tolerance "\"a\": [\"x\"".data [' '] ['}'] ']'
      (.obj [("a", .arr [.str "x"])]) (by decide) (by decide) ⟨[']'], rfl⟩
      (by decide) (by decide) rfl).2.2⟩
